import Mathlib

/-!
Verification of the crate-selection engine of the release-automation tool
(source file `crates/release-automation/src/crate_selection/mod.rs`).

The Rust module is shallowly embedded.  `enumflags2::BitFlags` values become
ordered lists of flags (a bit set; membership is what matters, and the
canonical enumeration `allCrateStateFlags` recovers the bit-iteration order),
the cargo metadata and the external collaborators (changelog parser, git
driver, filesystem) become explicit data carried by the workspace value, and
the unbounded work-list traversal of `dependencies_in_workspace` becomes a
fuel-indexed function.
-/

namespace ReleaseAutomation

/-- Kind of a cargo dependency declaration (`cargo::core::dependency::DepKind`). -/
inductive DepKind where
  | normal
  | development
  | build
deriving DecidableEq

/-- One dependency declaration of a manifest (`cargo::core::Dependency`),
restricted to the fields the selection engine reads: target name, kind,
optionality and whether the source is a filesystem path
(`Dependency::source_id().is_path()`). -/
structure Dependency where
  package_name : String
  kind : DepKind
  optional : Bool
  is_path : Bool
deriving DecidableEq

/-- Semantic version of a package (`semver::Version`), reduced to the triple;
the engine only feeds it to version-requirement matching. -/
structure Version where
  major : Nat
  minor : Nat
  patch : Nat
deriving DecidableEq

/-- A version requirement (`semver::VersionReq`) is embedded as its matching
predicate; `matches` of the external semver crate is function application. -/
def VersionReq : Type := Version → Bool

/-- Front matter of a crate changelog; the engine reads only `unreleasable()`. -/
structure FrontMatter where
  unreleasable : Bool
deriving DecidableEq

/-- One entry of `ChangelogT::changes()`; the engine only looks at release
entries, whose payload it formats into the previous release tag name. -/
inductive ChangeT where
  | Release (version : String)
  | Other
deriving DecidableEq

/-- Result of `ChangelogT::front_matter()`: the parse can fail (the `?` in
`members_states` propagates the failure). -/
inductive FrontMatterResult where
  | err
  | ok (fm : Option FrontMatter)
deriving DecidableEq

/-- Result of `ChangelogT::changes()`: `members_states` turns a failure into
an empty iterator via `.ok().iter().flatten()`. -/
inductive ChangesResult where
  | err
  | ok (changes : List ChangeT)
deriving DecidableEq

/-- A crate changelog handle (`ChangelogT<CrateChangelog>`) with the two
queries the engine performs. -/
structure Changelog where
  front_matter : FrontMatterResult
  changes : ChangesResult
deriving DecidableEq

/-- One workspace member (`Crate` wrapping a `cargo::core::Package`): name,
version, root path, its manifest's dependency declarations, whether
`{root}/README.md` exists, and the optional changelog found at
`{root}/CHANGELOG.md`. -/
structure Package where
  name : String
  version : Version
  root : String
  dependencies : List Dependency
  has_readme : Bool
  changelog : Option Changelog
deriving DecidableEq

/-- Detailed crate state flags (`CrateStateFlags`), in declaration order. -/
inductive CrateStateFlags where
  | Matched
  | IsWorkspaceDependency
  | HasPreviousRelease
  | ChangedSincePreviousRelease
  | MissingChangelog
  | MissingReadme
  | UnreleasableViaChangelogFrontmatter
  | EnforcedVersionReqViolated
  | DisallowedVersionReqViolated
deriving DecidableEq

/-- Meta states derived from the detailed flags (`MetaCrateStateFlags`). -/
inductive MetaCrateStateFlags where
  | Allowed
  | Blocked
  | Changed
  | Selected
deriving DecidableEq

/-- All crate state flags in bit (declaration) order; `BitFlags` iteration
follows this order. -/
def allCrateStateFlags : List CrateStateFlags :=
  [.Matched, .IsWorkspaceDependency, .HasPreviousRelease, .ChangedSincePreviousRelease,
   .MissingChangelog, .MissingReadme, .UnreleasableViaChangelogFrontmatter,
   .EnforcedVersionReqViolated, .DisallowedVersionReqViolated]

/-- A `BitFlags` value is embedded as a list of flags; membership is the bit. -/
def bfContains (l : List CrateStateFlags) (f : CrateStateFlags) : Bool :=
  decide (f ∈ l)

/-- BitFlags::insert - a no-op when the bit is already set. -/
def bfInsert (l : List CrateStateFlags) (f : CrateStateFlags) : List CrateStateFlags :=
  if f ∈ l then l else l ++ [f]

/-- BitFlags::remove of a whole mask (`self.bits &= !mask.bits`); the
remaining bits keep their order. -/
def bfRemove (l mask : List CrateStateFlags) : List CrateStateFlags :=
  l.filter (fun f => !bfContains mask f)

/-- BitFlags intersection (`intersection_c`); the result is enumerated in bit
order, as iteration over a `BitFlags` value is. -/
def bfInter (a b : List CrateStateFlags) : List CrateStateFlags :=
  allCrateStateFlags.filter (fun f => bfContains a f && bfContains b f)

/-- Membership for a meta-flag set. -/
def mfContains (l : List MetaCrateStateFlags) (f : MetaCrateStateFlags) : Bool :=
  decide (f ∈ l)

/-- MetaCrateStateFlags insertion (BitFlags::insert). -/
def mfInsert (l : List MetaCrateStateFlags) (f : MetaCrateStateFlags) : List MetaCrateStateFlags :=
  if f ∈ l then l else l ++ [f]

/-- MetaCrateStateFlags removal of a single flag (BitFlags::remove). -/
def mfRemove (l : List MetaCrateStateFlags) (f : MetaCrateStateFlags) : List MetaCrateStateFlags :=
  l.filter (fun x => !decide (x = f))

/-- The `CrateState` record: detailed flags, derived meta flags, and the two
forgiveness masks copied from the selection criteria. -/
structure CrateState where
  flags : List CrateStateFlags
  meta_flags : List MetaCrateStateFlags
  allowed_dependency_blockers : List CrateStateFlags
  allowed_selection_blockers : List CrateStateFlags
deriving DecidableEq

/-- The state produced by the derived `Default` implementation: every bit set
is empty.  Note that `default()` does not run `update_meta_flags`. -/
def defaultCrateState : CrateState :=
  { flags := [], meta_flags := [],
    allowed_dependency_blockers := [], allowed_selection_blockers := [] }

/-- CrateState::BLOCKING_STATES, in the order of the `make_bitflags!` listing;
as a bit set only membership matters. -/
def blockingStates : List CrateStateFlags :=
  [.MissingChangelog, .MissingReadme, .UnreleasableViaChangelogFrontmatter,
   .DisallowedVersionReqViolated, .EnforcedVersionReqViolated]

namespace CrateState

/-- CrateState::is_matched. -/
def is_matched (s : CrateState) : Bool :=
  bfContains s.flags .Matched

/-- CrateState::is_dependency. -/
def is_dependency (s : CrateState) : Bool :=
  bfContains s.flags .IsWorkspaceDependency

/-- CrateState::blocked_by: intersection of `BLOCKING_STATES` with the flags. -/
def blocked_by (s : CrateState) : List CrateStateFlags :=
  bfInter blockingStates s.flags

/-- CrateState::disallowed_blockers: `blocked_by` minus the applicable
forgiveness mask (selection mask if matched, else dependency mask if
dependency, else no mask). -/
def disallowed_blockers (s : CrateState) : List CrateStateFlags :=
  if s.is_matched then bfRemove s.blocked_by s.allowed_selection_blockers
  else if s.is_dependency then bfRemove s.blocked_by s.allowed_dependency_blockers
  else s.blocked_by

/-- CrateState::blocked. -/
def blocked (s : CrateState) : Bool :=
  !s.blocked_by.isEmpty

/-- CrateState::allowed. -/
def allowed (s : CrateState) : Bool :=
  s.disallowed_blockers.isEmpty

/-- CrateState::changed: there are changes to be released. -/
def changed (s : CrateState) : Bool :=
  !bfContains s.flags .HasPreviousRelease || bfContains s.flags .ChangedSincePreviousRelease

/-- CrateState::selected: matched explicitly or pulled in as a dependency. -/
def selected (s : CrateState) : Bool :=
  s.is_matched || s.is_dependency

/-- CrateState::release_selection: will be included in the release. -/
def release_selection (s : CrateState) : Bool :=
  !s.blocked && (s.changed || s.selected)

/-- CrateState::update_meta_flags: re-derive the four meta bits, in the order
the source sets them (Changed, Blocked, Allowed, Selected). -/
def update_meta_flags (s : CrateState) : CrateState :=
  let m := s.meta_flags
  let m := if s.changed then mfInsert m .Changed else mfRemove m .Changed
  let m := if !s.blocked_by.isEmpty then mfInsert m .Blocked else mfRemove m .Blocked
  let m := if s.disallowed_blockers.isEmpty then mfInsert m .Allowed else mfRemove m .Allowed
  let m := if s.selected then mfInsert m .Selected else mfRemove m .Selected
  { s with meta_flags := m }

/-- CrateState::new: build from flags and the two masks, then derive meta. -/
def new (flags allowed_dependency_blockers allowed_selection_blockers : List CrateStateFlags) :
    CrateState :=
  update_meta_flags
    { flags := flags, meta_flags := [],
      allowed_dependency_blockers := allowed_dependency_blockers,
      allowed_selection_blockers := allowed_selection_blockers }

/-- CrateState::insert: add one flag, then re-derive the meta flags. -/
def insert (s : CrateState) (f : CrateStateFlags) : CrateState :=
  update_meta_flags { s with flags := bfInsert s.flags f }

/-- CrateState::merge: extend the flags with the other state's flags, then
re-derive the meta flags. -/
def merge (s other : CrateState) : CrateState :=
  update_meta_flags { s with flags := other.flags.foldl bfInsert s.flags }

end CrateState

/-- The forgiveness mask the spec declares applicable to a state: the
selection mask when matched, else the dependency mask when a dependency, else
no mask at all. -/
def applicableMask (s : CrateState) : List CrateStateFlags :=
  if s.is_matched then s.allowed_selection_blockers
  else if s.is_dependency then s.allowed_dependency_blockers
  else []

/-- Meta-flag consistency: each stored meta bit agrees with its derivation
from the detailed flags and the forgiveness masks. -/
def metaConsistent (s : CrateState) : Prop :=
  mfContains s.meta_flags .Changed = s.changed ∧
  mfContains s.meta_flags .Blocked = !s.blocked_by.isEmpty ∧
  mfContains s.meta_flags .Allowed = s.disallowed_blockers.isEmpty ∧
  mfContains s.meta_flags .Selected = s.selected

/-- Configuration criteria for the crate selection (`SelectionCriteria`).
The regex `selection_filter` and the semver requirements are embedded as
their matching predicates. -/
structure SelectionCriteria where
  selection_filter : String → Bool
  enforced_version_reqs : List VersionReq
  disallowed_version_reqs : List VersionReq
  allowed_dependency_blockers : List CrateStateFlags
  allowed_selection_blockers : List CrateStateFlags
  exclude_dep_kinds : List DepKind
  exclude_optional_deps : Bool

/-- The default criteria: the default regex `".*"` matches every name, and
all other fields are empty or false. -/
def defaultCriteria : SelectionCriteria :=
  { selection_filter := fun _ => true
    enforced_version_reqs := []
    disallowed_version_reqs := []
    allowed_dependency_blockers := []
    allowed_selection_blockers := []
    exclude_dep_kinds := []
    exclude_optional_deps := false }

/-- The `ReleaseWorkspace`: the loaded members (in cargo manifest order), the
selection criteria, and the two version-control collaborators used by
`members_states` — `git_lookup_tag` (tag name lookup) and `changed_files`
(diff between two revisions under a directory; `none` models a git failure). -/
structure ReleaseWorkspace where
  members_unsorted : List Package
  criteria : SelectionCriteria
  lookupTag : String → Option String
  changedFiles : String → String → String → Option (List String)

/-- Errors surfaced by the engine (`bail!` sites relevant to the claims). -/
inductive RAErr where
  | dependencyCycle (a b : String)
  | frontMatterParse (crate : String)
  | versionControl (crate : String)
  | blockedReleaseRequired (report : String)
deriving DecidableEq

/-- Result of a fuel-indexed computation: a value, a `bail!` error, or fuel
exhaustion (the Rust loop would still be running). -/
inductive RunRes (α : Type) where
  | ok (val : α)
  | err (e : RAErr)
  | outOfFuel
deriving DecidableEq

/-- Resolution of a dependency name against the workspace member map
(`ws_members.get` in `dependencies_in_workspace`). -/
def findMember (ws : ReleaseWorkspace) (n : String) : Option Package :=
  ws.members_unsorted.find? (fun m => decide (m.name = n))

/-- A dependency declaration that the traversal neither skips nor ignores:
path-sourced, not an excluded optional, not an excluded kind. -/
def effectiveDep (c : SelectionCriteria) (d : Dependency) : Bool :=
  d.is_path && !(d.optional && c.exclude_optional_deps) &&
    !(decide (d.kind ∈ c.exclude_dep_kinds))

/-- The effective dependency declarations of one manifest. -/
def effDeps (c : SelectionCriteria) (p : Package) : List Dependency :=
  p.dependencies.filter (effectiveDep c)

/-- The member packages a manifest's traversal step pushes onto the work
list, in declaration order. -/
def pushListOf (ws : ReleaseWorkspace) (p : Package) : List Package :=
  (effDeps ws.criteria p).filterMap (fun d => findMember ws d.package_name)

/-- The effective intra-workspace dependency edge relation: `edge ws p q`
holds when some effective path dependency of `p` resolves to the member `q`. -/
def edge (ws : ReleaseWorkspace) (p q : Package) : Prop :=
  q ∈ pushListOf ws p

/-- The raw intra-workspace path-dependency relation, before the criteria
exclusions are applied. -/
def pathEdge (ws : ReleaseWorkspace) (p q : Package) : Prop :=
  q ∈ (p.dependencies.filter (fun d => d.is_path)).filterMap
    (fun d => findMember ws d.package_name)

/-- LinkedHashSet::insert: deduplicating insert; re-inserting a present value
moves it to the back of the order. -/
def lhsInsert (l : List Dependency) (d : Dependency) : List Dependency :=
  (l.filter (fun x => !decide (x = d))) ++ [d]

/-- One iteration of the inner `for dep in package.dependencies()` loop of
`Crate::dependencies_in_workspace`, over the remaining declarations of the
manifest being processed.  `selfName` is the origin crate (`self`), `curName`
the manifest currently popped from the work list.  Skips non-path deps,
excluded optionals and excluded kinds; inserts the declaration into the
ordered set; resolves workspace members, bailing out with the cycle error
when the resolved member is the origin, and otherwise queueing it. -/
def stepDeps (ws : ReleaseWorkspace) (selfName curName : String) :
    List Dependency → List Dependency → List Package →
    Except (String × String) (List Dependency × List Package)
  | [], found, pushed => .ok (found, pushed)
  | d :: ds, found, pushed =>
    if d.is_path then
      if d.optional && ws.criteria.exclude_optional_deps then
        stepDeps ws selfName curName ds found pushed
      else if decide (d.kind ∈ ws.criteria.exclude_dep_kinds) then
        stepDeps ws selfName curName ds found pushed
      else
        match findMember ws d.package_name with
        | some dp =>
          if dp.name = selfName then .error (selfName, curName)
          else stepDeps ws selfName curName ds (lhsInsert found d) (pushed ++ [dp])
        | none => stepDeps ws selfName curName ds (lhsInsert found d) pushed
    else stepDeps ws selfName curName ds found pushed

/-- The work-list loop of `Crate::dependencies_in_workspace`, fuel-indexed.
The Rust `Vec` work list pops from the back; the list here keeps the top of
the stack at the head, so one processed manifest prepends its pushes in
reverse declaration order. -/
def depsLoop (ws : ReleaseWorkspace) (selfName : String) :
    Nat → List Dependency → List Package → RunRes (List Dependency)
  | 0, _, _ => .outOfFuel
  | _ + 1, found, [] => .ok found
  | n + 1, found, p :: rest =>
    match stepDeps ws selfName p.name p.dependencies found [] with
    | .error e => .err (.dependencyCycle e.1 e.2)
    | .ok (found', pushed) => depsLoop ws selfName n found' (pushed.reverse ++ rest)

/-- Crate::dependencies_in_workspace: the transitive ordered dependency set
of one crate, computed by the work-list traversal starting from the crate's
own manifest. -/
def dependenciesInWorkspace (ws : ReleaseWorkspace) (p : Package) (fuel : Nat) :
    RunRes (List Dependency) :=
  depsLoop ws p.name fuel [] [p]

/-- Association-list lookup keyed by strings (the `HashMap::get` of the
member sort, where every key is present exactly once). -/
def strLookup {β : Type} : List (String × β) → String → Option β
  | [], _ => none
  | e :: rest, k => if e.1 = k then some e.2 else strLookup rest k

/-- The dependency-name map built by `ReleaseWorkspace::members`: for every
member, the names of its transitive workspace dependency set.  The fold stops
at the first failing member, like the source's `try_fold`. -/
def depNamesFold (ws : ReleaseWorkspace) (fuel : Nat) :
    List Package → RunRes (List (String × List String))
  | [] => .ok []
  | p :: ps =>
    match dependenciesInWorkspace ws p fuel with
    | .ok l =>
      match depNamesFold ws fuel ps with
      | .ok rest => .ok ((p.name, l.map (fun d => d.package_name)) :: rest)
      | .err e => .err e
      | .outOfFuel => .outOfFuel
    | .err e => .err e
    | .outOfFuel => .outOfFuel

/-- The pairwise comparison of `ReleaseWorkspace::members`: compare two
members by mutual membership in each other's transitive dependency-name set.
The source panics on the (true, true) case; it is unreachable whenever the
dependency map was computed successfully, because a mutual pair would have
made both traversals bail out with the cycle error, so it is mapped to `eq`. -/
def depCmp (dm : List (String × List String)) (a b : Package) : Ordering :=
  match decide (b.name ∈ (strLookup dm a.name).getD []),
        decide (a.name ∈ (strLookup dm b.name).getD []) with
  | true, true => .eq
  | true, false => .gt
  | false, true => .lt
  | false, false => .eq

/-- Insertion of one element into the (reversed) already-sorted prefix: the
new element sinks past exactly the consecutive run of elements comparing
`gt` against it.  This is the comparison behaviour of the stable insertion
sort Rust's slice sort performs on short runs. -/
def insertRev {α : Type} (cmp : α → α → Ordering) (x : α) : List α → List α
  | [] => [x]
  | a :: rest => if cmp a x = .gt then a :: insertRev cmp x rest else x :: a :: rest

/-- Stable insertion sort (`slice::sort_by`): elements are taken in order and
sunk into the sorted prefix; ties keep their original relative order. -/
def insertionSort {α : Type} (cmp : α → α → Ordering) (l : List α) : List α :=
  (l.foldl (fun acc x => insertRev cmp x acc) []).reverse

/-- ReleaseWorkspace::members: all members, sorted by `sort_by` with the
pairwise dependency comparison. -/
def membersFuel (ws : ReleaseWorkspace) (fuel : Nat) : RunRes (List Package) :=
  match depNamesFold ws fuel ws.members_unsorted with
  | .ok dm => .ok (insertionSort (depCmp dm) ws.members_unsorted)
  | .err e => .err e
  | .outOfFuel => .outOfFuel

/-- Witness state for claim C10: empty meta bits. -/
def c10StateA : CrateState :=
  { flags := [.Matched], meta_flags := [],
    allowed_dependency_blockers := [], allowed_selection_blockers := [] }

/-- Witness state for claim C10: same flags and masks, scrambled meta bits. -/
def c10StateB : CrateState :=
  { flags := [.Matched], meta_flags := [.Blocked, .Changed],
    allowed_dependency_blockers := [], allowed_selection_blockers := [] }

/-- A plain path dependency declaration on the named crate. -/
def pathDep (n : String) : Dependency :=
  { package_name := n, kind := .normal, optional := false, is_path := true }

/-- A changelog that parses cleanly and records no release yet. -/
def cleanChangelog : Changelog :=
  { front_matter := .ok none, changes := .ok [] }

/-- A well-formed package at version 0.1.0 with readme and clean changelog. -/
def mkPkg (n : String) (deps : List Dependency) : Package :=
  { name := n, version := { major := 0, minor := 1, patch := 0 },
    root := "/ws/" ++ n, dependencies := deps,
    has_readme := true, changelog := some cleanChangelog }

/-- A workspace over the given members with the given criteria; the git
collaborators find no tags and report no changed files. -/
def mkWs (ms : List Package) (c : SelectionCriteria) : ReleaseWorkspace :=
  { members_unsorted := ms, criteria := c,
    lookupTag := fun _ => none, changedFiles := fun _ _ _ => some [] }

/-- Claim C4 failing input, member `x1`: depends on `x2` by path. -/
def px1 : Package := mkPkg "x1" [pathDep "x2"]

/-- Claim C4 failing input, member `u`: unrelated to both others. -/
def pu : Package := mkPkg "u" []

/-- Claim C4 failing input, member `x2`: a leaf. -/
def px2 : Package := mkPkg "x2" []

/-- Claim C4 failing input: `[x1, u, x2]` with `x1 → x2` and `u` unrelated.
The comparator is not a strict weak order (`x1 ~ u`, `u ~ x2`, `x1 > x2`), so
the sort never compares `x1` with `x2` and leaves `x1` before its own
transitive dependency. -/
def wsC4 : ReleaseWorkspace := mkWs [px1, pu, px2] defaultCriteria

/-- Claim C5 counterexample, member `x`: depends on `z`, not on any cycle. -/
def pcx : Package := mkPkg "x" [pathDep "z"]

/-- Claim C5 counterexample, member `z`: on a two-cycle with `w`. -/
def pcz : Package := mkPkg "z" [pathDep "w"]

/-- Claim C5 counterexample, member `w`: on a two-cycle with `z`. -/
def pcw : Package := mkPkg "w" [pathDep "z"]

/-- Claim C5 counterexample workspace: `x → z`, `z ↔ w`.  Packages `z` and
`w` transitively depend on themselves, but the traversal started at `x` only
bails when `x` itself reappears, so it bounces between `z` and `w` forever. -/
def wsC5 : ReleaseWorkspace := mkWs [pcx, pcz, pcw] defaultCriteria

/-- Divergence of one crate's dependency computation: no finite fuel ever
completes it. -/
def depsDiverges (ws : ReleaseWorkspace) (p : Package) : Prop :=
  ∀ n, dependenciesInWorkspace ws p n = .outOfFuel

/-- Divergence of the sorted member computation. -/
def membersDiverges (ws : ReleaseWorkspace) : Prop :=
  ∀ n, membersFuel ws n = .outOfFuel

/-- Existence of a member that transitively depends on itself through
effective intra-workspace path dependencies. -/
def hasSelfCycle (ws : ReleaseWorkspace) : Prop :=
  ∃ p ∈ ws.members_unsorted, Relation.TransGen (edge ws) p p

/-- A manifest whose effective dependencies name the origin crate `s`: when
the traversal for `s` processes such a manifest, it bails out with the cycle
error. -/
def badFor (ws : ReleaseWorkspace) (s : String) (p : Package) : Prop :=
  ∃ d ∈ effDeps ws.criteria p, ∃ q, findMember ws d.package_name = some q ∧ q.name = s

/-- Sequential `LinkedHashSet` insertion of a run of declarations. -/
def insFold (found ds : List Dependency) : List Dependency :=
  ds.foldl lhsInsert found

/-- The members resolved from the effective declarations of a declaration
run, in order: what one processed manifest appends to the work list. -/
def pushCands (ws : ReleaseWorkspace) (ds : List Dependency) : List Package :=
  (ds.filter (effectiveDep ws.criteria)).filterMap (fun d => findMember ws d.package_name)

/-- The subtype of workspace members, carrier of the termination measure. -/
def MemberOf (ws : ReleaseWorkspace) : Type :=
  { p : Package // p ∈ ws.members_unsorted }

/-- Child relation on members: the second argument's traversal step pushes
the first argument. -/
def childRel (ws : ReleaseWorkspace) (q p : MemberOf ws) : Prop :=
  edge ws p.1 q.1

/-- Weight of a member: one more than the total weight of its pushes.  This
is the number of work-list pops the traversal spends below the member, and it
is well defined precisely because the effective edge relation is assumed
well-founded. -/
def wtM (ws : ReleaseWorkspace) (hwf : WellFounded (childRel ws)) : MemberOf ws → Nat :=
  hwf.fix (fun p ih =>
    1 + ((pushListOf ws p.1).attach.map (fun q =>
      ih ⟨q.1, by
        obtain ⟨d, hd, hf⟩ := List.mem_filterMap.mp q.2
        exact List.mem_of_find?_eq_some hf⟩ q.2)).sum)

/-- Weight extended to all packages (members through `wtM`, zero elsewhere;
the traversal only ever queues members after the start). -/
def wt (ws : ReleaseWorkspace) (hwf : WellFounded (childRel ws)) (p : Package) : Nat :=
  if h : p ∈ ws.members_unsorted then wtM ws hwf ⟨p, h⟩ else 0

/-- Total weight of a work list. -/
def wtSum (ws : ReleaseWorkspace) (hwf : WellFounded (childRel ws))
    (queue : List Package) : Nat :=
  (queue.map (wt ws hwf)).sum

/-- Witness workspace member `a`: path-depends on `b`. -/
def paA : Package := mkPkg "a" [pathDep "b"]

/-- Witness workspace member `b`: a leaf. -/
def paB : Package := mkPkg "b" []

/-- Acyclic witness workspace `a → b` with the match-all default criteria. -/
def wsAB : ReleaseWorkspace := mkWs [paA, paB] defaultCriteria

/-- The per-name crate state map (`LinkedHashMap<String, CrateState>`),
embedded as an insertion-ordered association list. -/
abbrev StateMap := List (String × CrateState)

/-- LinkedHashMap lookup. -/
def lhmLookup : StateMap → String → Option CrateState
  | [], _ => none
  | e :: rest, k => if e.1 = k then some e.2 else lhmLookup rest k

/-- The `insert_state!` macro: `entry(k).or_insert(init).insert(flag)` —
update the entry in place keeping its position, or append a fresh entry at
the back. -/
def lhmInsertFlag : StateMap → String → CrateState → CrateStateFlags → StateMap
  | [], k, init, f => [(k, init.insert f)]
  | e :: rest, k, init, f =>
    if e.1 = k then (e.1, e.2.insert f) :: rest else e :: lhmInsertFlag rest k init f

/-- The `get_state!` macro used as a read: `entry(k).or_insert(init)` — its
side effect creates the entry when absent. -/
def lhmTouch : StateMap → String → CrateState → StateMap
  | [], k, init => [(k, init)]
  | e :: rest, k, init => if e.1 = k then e :: rest else e :: lhmTouch rest k init

/-- The `initial_state` template of `members_states`: the criteria's masks
over a `Default` state (so its meta flags are not derived). -/
def initialState (c : SelectionCriteria) : CrateState :=
  { flags := [], meta_flags := [],
    allowed_dependency_blockers := c.allowed_dependency_blockers,
    allowed_selection_blockers := c.allowed_selection_blockers }

/-- The enforced requirements the current version fails, truncated by the
source's `take(1)` after `filter`. -/
def enforcedViolations (c : SelectionCriteria) (v : Version) : List VersionReq :=
  (c.enforced_version_reqs.filter (fun r => !r v)).take 1

/-- The disallowed requirements the current version matches, truncated by the
source's `take(1)` after `filter`. -/
def disallowedViolations (c : SelectionCriteria) (v : Version) : List VersionReq :=
  (c.disallowed_version_reqs.filter (fun r => r v)).take 1

/-- Step 1 of the per-member state computation: the regex match. -/
def stepMatched (ws : ReleaseWorkspace) (m : StateMap) (p : Package) : StateMap :=
  if ws.criteria.selection_filter p.name then
    lhmInsertFlag m p.name (initialState ws.criteria) .Matched
  else m

/-- Steps 2 and 3: the version-requirement checks, each inserting its flag
once per element of the take-one list. -/
def stepVersionReqs (ws : ReleaseWorkspace) (m : StateMap) (p : Package) : StateMap :=
  let m2 := (enforcedViolations ws.criteria p.version).foldl
    (fun acc _ =>
      lhmInsertFlag acc p.name (initialState ws.criteria) .EnforcedVersionReqViolated) m
  (disallowedViolations ws.criteria p.version).foldl
    (fun acc _ =>
      lhmInsertFlag acc p.name (initialState ws.criteria) .DisallowedVersionReqViolated) m2

/-- Step 4: reading the member's own state creates its entry; when the entry
is matched, every descriptor of the transitive dependency set gets
`IsWorkspaceDependency` on the entry under its name. -/
def stepDepsProp (ws : ReleaseWorkspace) (fuel : Nat) (m : StateMap) (p : Package) :
    RunRes StateMap :=
  let m4 := lhmTouch m p.name (initialState ws.criteria)
  if ((lhmLookup m4 p.name).getD (initialState ws.criteria)).is_matched then
    match dependenciesInWorkspace ws p fuel with
    | .ok deps => .ok (deps.foldl
        (fun acc d =>
          lhmInsertFlag acc d.package_name (initialState ws.criteria) .IsWorkspaceDependency) m4)
    | .err e => .err e
    | .outOfFuel => .outOfFuel
  else .ok m4

/-- Step 5: the readme existence check. -/
def stepReadme (ws : ReleaseWorkspace) (m : StateMap) (p : Package) : StateMap :=
  if !p.has_readme then lhmInsertFlag m p.name (initialState ws.criteria) .MissingReadme
  else m

/-- The unreleasable-front-matter part of step 6. -/
def stepFrontMatter (ws : ReleaseWorkspace) (m : StateMap) (p : Package)
    (fm : Option FrontMatter) : StateMap :=
  match fm with
  | some f =>
    if f.unreleasable then
      lhmInsertFlag m p.name (initialState ws.criteria) .UnreleasableViaChangelogFrontmatter
    else m
  | none => m

/-- The most recent release entry of a changelog:
`changes().ok().iter().flatten().filter_map(Release).take(1).next()`. -/
def firstReleaseVersion (cl : Changelog) : Option String :=
  let changes : List ChangeT := match cl.changes with
    | .ok l => l
    | .err => []
  (changes.filterMap (fun ch => match ch with
    | .Release v => some v
    | .Other => none)).head?

/-- The previous-release part of step 6: tag lookup named
`{name}-v{version}` and diff-based change detection (a git failure
propagates). -/
def stepPrevRelease (ws : ReleaseWorkspace) (m : StateMap) (p : Package)
    (cl : Changelog) : RunRes StateMap :=
  match firstReleaseVersion cl with
  | none => .ok m
  | some prevVer =>
    match ws.lookupTag (p.name ++ "-v" ++ prevVer) with
    | none => .ok m
    | some tag =>
      let m7 := lhmInsertFlag m p.name (initialState ws.criteria) .HasPreviousRelease
      match ws.changedFiles p.root tag "HEAD" with
      | none => .err (.versionControl p.name)
      | some files => .ok (if files.isEmpty then m7
          else lhmInsertFlag m7 p.name (initialState ws.criteria)
            .ChangedSincePreviousRelease)

/-- Step 6: the changelog-driven flags — missing changelog, unreleasable
front matter (a parse failure propagates), then the previous-release flags. -/
def stepChangelog (ws : ReleaseWorkspace) (m : StateMap) (p : Package) : RunRes StateMap :=
  match p.changelog with
  | none => .ok (lhmInsertFlag m p.name (initialState ws.criteria) .MissingChangelog)
  | some cl =>
    match cl.front_matter with
    | .err => .err (.frontMatterParse p.name)
    | .ok fm => stepPrevRelease ws (stepFrontMatter ws m p fm) p cl

/-- One member's pass of the `members_states` loop, steps 1 through 6. -/
def memberStep (ws : ReleaseWorkspace) (fuel : Nat) (m : StateMap) (p : Package) :
    RunRes StateMap :=
  match stepDepsProp ws fuel (stepVersionReqs ws (stepMatched ws m p) p) p with
  | .ok m5 => stepChangelog ws (stepReadme ws m5 p) p
  | .err e => .err e
  | .outOfFuel => .outOfFuel

/-- The fold of `members_states` over the sorted members. -/
def statesFold (ws : ReleaseWorkspace) (fuel : Nat) : List Package → StateMap → RunRes StateMap
  | [], m => .ok m
  | p :: ps, m =>
    match memberStep ws fuel m p with
    | .ok m' => statesFold ws fuel ps m'
    | .err e => .err e
    | .outOfFuel => .outOfFuel

/-- ReleaseWorkspace::members_states: the fully populated state map. -/
def membersStatesFuel (ws : ReleaseWorkspace) (fuel : Nat) : RunRes StateMap :=
  match membersFuel ws fuel with
  | .ok ms => statesFold ws fuel ms []
  | .err e => .err e
  | .outOfFuel => .outOfFuel

/-- All meta flags, in bit (declaration) order. -/
def allMetaFlags : List MetaCrateStateFlags :=
  [.Allowed, .Blocked, .Changed, .Selected]

/-- Right-pad a string with spaces to the given width (`{:<N}`). -/
def padRight (s : String) (n : Nat) : String :=
  s ++ String.mk (List.replicate (n - s.length) ' ')

/-- The 80-column dash separator (`{:-<80}` applied to an empty string). -/
def dashSep : String :=
  String.mk (List.replicate 80 '-')

/-- The Debug name of a crate state flag (the Rust enum variant name). -/
def flagName : CrateStateFlags → String
  | .Matched => "Matched"
  | .IsWorkspaceDependency => "IsWorkspaceDependency"
  | .HasPreviousRelease => "HasPreviousRelease"
  | .ChangedSincePreviousRelease => "ChangedSincePreviousRelease"
  | .MissingChangelog => "MissingChangelog"
  | .MissingReadme => "MissingReadme"
  | .UnreleasableViaChangelogFrontmatter => "UnreleasableViaChangelogFrontmatter"
  | .EnforcedVersionReqViolated => "EnforcedVersionReqViolated"
  | .DisallowedVersionReqViolated => "DisallowedVersionReqViolated"

/-- The Debug name of a meta flag. -/
def metaFlagName : MetaCrateStateFlags → String
  | .Allowed => "Allowed"
  | .Blocked => "Blocked"
  | .Changed => "Changed"
  | .Selected => "Selected"

/-- Debug rendering of a collected flag iterator, like `[A, B]`. -/
def fmtFlags (l : List CrateStateFlags) : String :=
  "[" ++ String.intercalate ", " (l.map flagName) ++ "]"

/-- Debug rendering of a collected meta-flag iterator. -/
def fmtMetaFlags (l : List MetaCrateStateFlags) : String :=
  "[" ++ String.intercalate ", " (l.map metaFlagName) ++ "]"

/-- BitFlags iteration of a stored flag set follows bit order. -/
def bfCanonical (l : List CrateStateFlags) : List CrateStateFlags :=
  allCrateStateFlags.filter (fun f => bfContains l f)

/-- BitFlags iteration of a stored meta-flag set follows bit order. -/
def mfCanonical (l : List MetaCrateStateFlags) : List MetaCrateStateFlags :=
  allMetaFlags.filter (fun f => mfContains l f)

/-- CrateState::format_crates_states: the rendered multi-line report. -/
def formatCratesStates (states : List (String × CrateState)) (title : String)
    (show_blocking show_flags show_meta : Bool) : String :=
  let states_shown :=
    (if show_blocking || show_flags || show_meta then "Showing states: " else "")
    ++ (if show_blocking then "Blocking " else "")
    ++ (if show_flags then "Flags " else "")
    ++ (if show_meta then "Meta" else "")
  let states_shown := if states_shown = "" then states_shown else states_shown ++ "\n"
  let header := "\n" ++ dashSep ++ "\n" ++ title ++ "\n" ++ states_shown
  states.foldl (fun msg e =>
    let msg := msg ++ dashSep ++ "\n" ++ padRight e.1 30
    let msg := if show_blocking then
        msg ++ fmtFlags e.2.blocked_by ++ "\n" ++ padRight "" 30
      else msg
    let msg := if show_flags then
        msg ++ fmtFlags (bfCanonical e.2.flags) ++ "\n" ++ padRight "" 30
      else msg
    let msg := if show_meta then msg ++ fmtMetaFlags (mfCanonical e.2.meta_flags) else msg
    msg ++ "\n") header

/-- ReleaseWorkspace::release_selection: fail with the rendered report when a
selected-but-disallowed member exists, otherwise the ordered members passing
the release predicate.  `Crate::state()` is the map lookup (its `expect`
never fires: every member's entry was created by `get_state!`). -/
def releaseSelectionFuel (ws : ReleaseWorkspace) (fuel : Nat) : RunRes (List Package) :=
  match membersFuel ws fuel with
  | .ok members =>
    match membersStatesFuel ws fuel with
    | .ok st =>
      let blocked_crates := (members.map
          (fun p => (p.name, (lhmLookup st p.name).getD defaultCrateState))).filter
        (fun e => e.2.selected && !e.2.allowed)
      if blocked_crates.isEmpty = false then
        .err (.blockedReleaseRequired
          ("the following crates are blocked but required for the release: \n" ++
            formatCratesStates blocked_crates "DISALLOWED BLOCKING CRATES" true false false))
      else
        .ok (members.filter
          (fun p => ((lhmLookup st p.name).getD defaultCrateState).release_selection))
    | .err e => .err e
    | .outOfFuel => .outOfFuel
  | .err e => .err e
  | .outOfFuel => .outOfFuel

/-- Presence of a flag on a state map entry. -/
def flagIn (m : StateMap) (k : String) (f : CrateStateFlags) : Prop :=
  ∃ s, lhmLookup m k = some s ∧ bfContains s.flags f = true

/-- Map monotonicity: every present flag stays present. -/
def keepsFlags (m m' : StateMap) : Prop :=
  ∀ k f, flagIn m k f → flagIn m' k f

/-- What one member's pass may add to the state map, per flag: the
provenance of every insertion site of `members_states`. -/
def stepProv (ws : ReleaseWorkspace) (fuel : Nat) (p : Package) (k : String)
    (f : CrateStateFlags) : Prop :=
  (k = p.name ∧ f = .Matched ∧ ws.criteria.selection_filter p.name = true) ∨
  (k = p.name ∧ f = .EnforcedVersionReqViolated ∧
    ∃ r ∈ ws.criteria.enforced_version_reqs, r p.version = false) ∨
  (k = p.name ∧ f = .DisallowedVersionReqViolated ∧
    ∃ r ∈ ws.criteria.disallowed_version_reqs, r p.version = true) ∨
  (f = .IsWorkspaceDependency ∧ ∃ l, dependenciesInWorkspace ws p fuel = .ok l ∧
    ∃ d ∈ l, d.package_name = k) ∨
  (k = p.name ∧ (f = .MissingReadme ∨ f = .MissingChangelog ∨
    f = .UnreleasableViaChangelogFrontmatter ∨ f = .HasPreviousRelease ∨
    f = .ChangedSincePreviousRelease))

/-- Witness member for claim C7: version 0.1.0 against an enforced `>= 1`. -/
def pC7 : Package := mkPkg "c7crate" []

/-- Witness workspace for claim C7: one member, nothing matched, one
enforced version requirement the member's version fails. -/
def wsC7 : ReleaseWorkspace :=
  mkWs [pC7]
    { defaultCriteria with
      selection_filter := fun _ => false
      enforced_version_reqs := [fun v => decide (1 ≤ v.major)] }

/-- Every crate state flag is listed in `allCrateStateFlags`. -/
theorem mem_allCrateStateFlags (f : CrateStateFlags) : f ∈ allCrateStateFlags := by
  cases f <;> simp [allCrateStateFlags]

theorem mfContains_mfInsert (l : List MetaCrateStateFlags) (f g : MetaCrateStateFlags) :
    mfContains (mfInsert l f) g = (mfContains l g || decide (g = f)) := by
  unfold mfInsert mfContains
  split
  · rename_i h
    by_cases hg : g = f <;> simp [hg, h]
  · simp [List.mem_append, Bool.or_comm]

theorem mfContains_mfRemove (l : List MetaCrateStateFlags) (f g : MetaCrateStateFlags) :
    mfContains (mfRemove l f) g = (mfContains l g && !decide (g = f)) := by
  unfold mfRemove mfContains
  by_cases hg : g = f <;> simp [hg, List.mem_filter]

/-- Setting a single meta bit to a given value (the conditional
insert-or-remove idiom of `update_meta_flags`). -/
theorem mfContains_condSet (m : List MetaCrateStateFlags) (c : Bool)
    (f g : MetaCrateStateFlags) :
    mfContains (if c then mfInsert m f else mfRemove m f) g =
      (if g = f then c else mfContains m g) := by
  cases c <;> by_cases hg : g = f <;>
    simp [mfContains_mfInsert, mfContains_mfRemove, hg]

/-- Every meta bit of `update_meta_flags` equals the value it was derived
from. -/
theorem update_meta_flags_meta (s : CrateState) (g : MetaCrateStateFlags) :
    mfContains s.update_meta_flags.meta_flags g =
      (if g = .Selected then s.selected
       else if g = .Allowed then s.disallowed_blockers.isEmpty
       else if g = .Blocked then !s.blocked_by.isEmpty
       else s.changed) := by
  show mfContains
      (if s.selected then
        mfInsert
          (if s.disallowed_blockers.isEmpty then
            mfInsert
              (if !s.blocked_by.isEmpty then
                mfInsert (if s.changed then mfInsert s.meta_flags .Changed
                  else mfRemove s.meta_flags .Changed) .Blocked
              else
                mfRemove (if s.changed then mfInsert s.meta_flags .Changed
                  else mfRemove s.meta_flags .Changed) .Blocked) .Allowed
          else
            mfRemove
              (if !s.blocked_by.isEmpty then
                mfInsert (if s.changed then mfInsert s.meta_flags .Changed
                  else mfRemove s.meta_flags .Changed) .Blocked
              else
                mfRemove (if s.changed then mfInsert s.meta_flags .Changed
                  else mfRemove s.meta_flags .Changed) .Blocked) .Allowed) .Selected
      else
        mfRemove
          (if s.disallowed_blockers.isEmpty then
            mfInsert
              (if !s.blocked_by.isEmpty then
                mfInsert (if s.changed then mfInsert s.meta_flags .Changed
                  else mfRemove s.meta_flags .Changed) .Blocked
              else
                mfRemove (if s.changed then mfInsert s.meta_flags .Changed
                  else mfRemove s.meta_flags .Changed) .Blocked) .Allowed
          else
            mfRemove
              (if !s.blocked_by.isEmpty then
                mfInsert (if s.changed then mfInsert s.meta_flags .Changed
                  else mfRemove s.meta_flags .Changed) .Blocked
              else
                mfRemove (if s.changed then mfInsert s.meta_flags .Changed
                  else mfRemove s.meta_flags .Changed) .Blocked) .Allowed) .Selected) g = _
  rw [mfContains_condSet, mfContains_condSet, mfContains_condSet, mfContains_condSet]
  cases g <;> simp

/-- The result of `update_meta_flags` is always meta-consistent, whatever the
input state was: each of the four bits is recomputed from scratch. -/
theorem metaConsistent_update_meta_flags (s : CrateState) :
    metaConsistent (s.update_meta_flags) := by
  have hflags : (s.update_meta_flags).flags = s.flags := rfl
  have hdep : (s.update_meta_flags).allowed_dependency_blockers =
      s.allowed_dependency_blockers := rfl
  have hsel : (s.update_meta_flags).allowed_selection_blockers =
      s.allowed_selection_blockers := rfl
  have hch : (s.update_meta_flags).changed = s.changed := by
    unfold CrateState.changed
    rw [hflags]
  have hbb : (s.update_meta_flags).blocked_by = s.blocked_by := by
    unfold CrateState.blocked_by
    rw [hflags]
  have hdb : (s.update_meta_flags).disallowed_blockers = s.disallowed_blockers := by
    unfold CrateState.disallowed_blockers CrateState.is_matched CrateState.is_dependency
    rw [hflags, hbb, hdep, hsel]
  have hse : (s.update_meta_flags).selected = s.selected := by
    unfold CrateState.selected CrateState.is_matched CrateState.is_dependency
    rw [hflags]
  refine ⟨?_, ?_, ?_, ?_⟩ <;>
    simp only [update_meta_flags_meta, hch, hbb, hdb, hse] <;> simp

/-- Claim C1: `release_selection` holds exactly when no blocking flag is set
and the crate is changed (no previous release, or changed since it) or
selected (matched, or a workspace dependency).  In particular a
changed-but-unselected crate satisfies the predicate. -/
theorem claim_C1 (S : CrateState) :
    S.release_selection = true ↔
      ((∀ f ∈ blockingStates, bfContains S.flags f = false) ∧
        (bfContains S.flags .HasPreviousRelease = false ∨
          bfContains S.flags .ChangedSincePreviousRelease = true ∨
          bfContains S.flags .Matched = true ∨
          bfContains S.flags .IsWorkspaceDependency = true)) := by
  unfold CrateState.release_selection CrateState.blocked CrateState.changed
    CrateState.selected CrateState.is_matched CrateState.is_dependency
    CrateState.blocked_by bfInter
  rw [Bool.and_eq_true, Bool.not_not, Bool.or_eq_true, Bool.or_eq_true, Bool.or_eq_true,
    Bool.not_eq_true', List.isEmpty_iff, List.filter_eq_nil_iff]
  constructor
  · rintro ⟨h1, h2⟩
    refine ⟨?_, ?_⟩
    · intro f hf
      have := h1 f (mem_allCrateStateFlags f)
      rw [Bool.and_eq_true] at this
      cases hc : bfContains S.flags f
      · rfl
      · exact absurd ⟨by simp [bfContains, hf], hc⟩ this
    · rcases h2 with h | h
      · rcases h with h | h
        · exact Or.inl (by simpa using h)
        · exact Or.inr (Or.inl h)
      · rcases h with h | h
        · exact Or.inr (Or.inr (Or.inl h))
        · exact Or.inr (Or.inr (Or.inr h))
  · rintro ⟨h1, h2⟩
    refine ⟨?_, ?_⟩
    · intro f _
      rw [Bool.and_eq_true]
      rintro ⟨hb, hc⟩
      have hfm : f ∈ blockingStates := by simpa [bfContains] using hb
      rw [h1 f hfm] at hc
      exact absurd hc (by simp)
    · rcases h2 with h | h | h | h
      · exact Or.inl (Or.inl (by simpa using h))
      · exact Or.inl (Or.inr h)
      · exact Or.inr (Or.inl h)
      · exact Or.inr (Or.inr h)

/-- Removing the empty mask removes nothing. -/
theorem bfRemove_nil (l : List CrateStateFlags) : bfRemove l [] = l := by
  unfold bfRemove bfContains
  induction l with
  | nil => rfl
  | cons a t ih => simp [List.filter_cons, ih]

/-- Emptiness of `blocked_by` minus a mask, characterised flag-wise. -/
theorem bfRemove_blocked_by_eq_nil (S : CrateState) (mask : List CrateStateFlags) :
    bfRemove S.blocked_by mask = [] ↔
      ∀ f ∈ blockingStates, bfContains S.flags f = true → bfContains mask f = true := by
  unfold bfRemove CrateState.blocked_by bfInter
  rw [List.filter_eq_nil_iff]
  constructor
  · intro h f hf hc
    by_cases hmask : bfContains mask f = true
    · exact hmask
    · exfalso
      refine h f ?_ ?_
      · rw [List.mem_filter]
        refine ⟨mem_allCrateStateFlags f, ?_⟩
        rw [Bool.and_eq_true]
        exact ⟨by simp [bfContains, hf], hc⟩
      · simp [hmask]
  · intro h f hf
    rw [List.mem_filter, Bool.and_eq_true] at hf
    obtain ⟨-, hb, hc⟩ := hf
    have hfm : f ∈ blockingStates := by simpa [bfContains] using hb
    simp [h f hfm hc]

/-- Claim C2: `allowed` holds exactly when every blocking flag that is set is
forgiven by the applicable mask (selection mask when matched, else dependency
mask when a dependency, else nothing is forgiven). -/
theorem claim_C2 (S : CrateState) :
    S.allowed = true ↔
      ∀ f ∈ blockingStates, bfContains S.flags f = true →
        bfContains (applicableMask S) f = true := by
  unfold CrateState.allowed CrateState.disallowed_blockers applicableMask
  rw [List.isEmpty_iff]
  by_cases hm : S.is_matched = true
  · rw [if_pos hm, if_pos hm]
    exact bfRemove_blocked_by_eq_nil S _
  · rw [if_neg hm, if_neg hm]
    by_cases hd : S.is_dependency = true
    · rw [if_pos hd, if_pos hd]
      exact bfRemove_blocked_by_eq_nil S _
    · rw [if_neg hd, if_neg hd]
      rw [show S.blocked_by = bfRemove S.blocked_by [] from (bfRemove_nil _).symm]
      exact bfRemove_blocked_by_eq_nil S []

/-- Claim C9, counterexample: the `Default`-constructed empty state does not
re-derive its meta flags.  Its derived `Changed` and `Allowed` values are
true (no previous release; no blocker), yet the stored meta bits are absent. -/
theorem claim_C9_counterexample :
    defaultCrateState.changed = true ∧
      mfContains defaultCrateState.meta_flags .Changed = false ∧
      defaultCrateState.allowed = true ∧
      mfContains defaultCrateState.meta_flags .Allowed = false := by
  decide

/-- Claim C9, amended: every state produced by `new`, by `insert` or by
`merge` has meta flags equal to their derivations at the moment the operation
returns (each of these re-runs `update_meta_flags`); the `Default`-constructed
empty state is excluded, since `default()` does not re-derive. -/
theorem claim_C9_amended :
    (∀ fl dep sel, metaConsistent (CrateState.new fl dep sel)) ∧
      (∀ (S : CrateState) (f : CrateStateFlags), metaConsistent (S.insert f)) ∧
      (∀ S other : CrateState, metaConsistent (S.merge other)) :=
  ⟨fun _ _ _ => metaConsistent_update_meta_flags _,
   fun _ _ => metaConsistent_update_meta_flags _,
   fun _ _ => metaConsistent_update_meta_flags _⟩

/-- Claim C10: the stored meta flags never influence the four decision
queries nor the release predicate; two states agreeing on the detailed flags
and the two masks answer identically. -/
theorem claim_C10 (S T : CrateState)
    (hf : S.flags = T.flags)
    (hd : S.allowed_dependency_blockers = T.allowed_dependency_blockers)
    (hs : S.allowed_selection_blockers = T.allowed_selection_blockers) :
    S.changed = T.changed ∧ S.selected = T.selected ∧ S.blocked = T.blocked ∧
      S.allowed = T.allowed ∧ S.release_selection = T.release_selection := by
  refine ⟨?_, ?_, ?_, ?_, ?_⟩ <;>
    simp [CrateState.changed, CrateState.selected, CrateState.blocked,
      CrateState.allowed, CrateState.release_selection, CrateState.blocked_by,
      CrateState.disallowed_blockers, CrateState.is_matched, CrateState.is_dependency,
      hf, hd, hs]

/-- Witness for claim C10 at two concrete states that differ only in their
stored meta flags. -/
theorem claim_C10_witness :
    c10StateA.changed = c10StateB.changed ∧ c10StateA.selected = c10StateB.selected ∧
      c10StateA.blocked = c10StateB.blocked ∧ c10StateA.allowed = c10StateB.allowed ∧
      c10StateA.release_selection = c10StateB.release_selection :=
  claim_C10 c10StateA c10StateB rfl rfl rfl

/-- Claim C4, failing-input theorem: on the workspace `[x1, u, x2]` with the
single edge `x1 → x2`, `members()` succeeds and returns the original order,
leaving `x1` before `x2` although `x2` is in `x1`'s transitive workspace
dependency set.  The pairwise comparison is not a strict weak order (`x1` and
`u` compare equal, `u` and `x2` compare equal, yet `x1 > x2`), so the stable
sort never compares `x1` with `x2` and the claimed pairwise invariant fails. -/
theorem claim_C4_bug :
    membersFuel wsC4 9 = .ok [px1, pu, px2] ∧
      dependenciesInWorkspace wsC4 px1 9 = .ok [pathDep "x2"] ∧
      (pathDep "x2").package_name = px2.name := by
  refine ⟨by decide, by decide, rfl⟩

/-- The only error `stepDeps` produces is the cycle bail-out naming the
origin crate and the manifest being processed. -/
theorem stepDeps_err (ws : ReleaseWorkspace) (s c : String) :
    ∀ (ds found : List Dependency) (pushed : List Package) (e : String × String),
      stepDeps ws s c ds found pushed = .error e → e = (s, c) := by
  intro ds
  induction ds with
  | nil =>
    intro found pushed e h
    simp [stepDeps] at h
  | cons d ds ih =>
    intro found pushed e h
    rw [stepDeps] at h
    split at h
    · split at h
      · exact ih _ _ _ h
      · split at h
        · exact ih _ _ _ h
        · split at h
          · split at h
            · exact ((Except.error.inj h)).symm
            · exact ih _ _ _ h
          · exact ih _ _ _ h
    · exact ih _ _ _ h

/-- The only error the work-list loop produces is the cycle bail-out naming
the origin crate. -/
theorem depsLoop_err (ws : ReleaseWorkspace) (s : String) :
    ∀ (n : Nat) (found : List Dependency) (queue : List Package) (e : RAErr),
      depsLoop ws s n found queue = .err e → ∃ b, e = .dependencyCycle s b := by
  intro n
  induction n with
  | zero =>
    intro found queue e h
    simp [depsLoop] at h
  | succ n ih =>
    intro found queue e h
    match queue with
    | [] => simp [depsLoop] at h
    | p :: rest =>
      rw [depsLoop] at h
      split at h
      · rename_i st hst
        have hshape := stepDeps_err ws s p.name p.dependencies found [] st hst
        refine ⟨st.2, ?_⟩
        have : RAErr.dependencyCycle st.1 st.2 = e := RunRes.err.inj h
        rw [← this, hshape]
      · exact ih _ _ _ h

/-- Unfolding of effectiveness into the three checks the traversal performs. -/
theorem effectiveDep_iff (c : SelectionCriteria) (d : Dependency) :
    effectiveDep c d = true ↔
      d.is_path = true ∧ (d.optional && c.exclude_optional_deps) = false ∧
        decide (d.kind ∈ c.exclude_dep_kinds) = false := by
  unfold effectiveDep
  cases hp : d.is_path <;> cases ho : (d.optional && c.exclude_optional_deps) <;>
    cases hk : decide (d.kind ∈ c.exclude_dep_kinds) <;> simp

/-- Membership in the pushed list of one processed manifest: exactly the
members resolved from the still-unprocessed effective declarations, on top of
the already-pushed ones. -/
theorem stepDeps_ok_pushed (ws : ReleaseWorkspace) (s c : String) :
    ∀ (ds found : List Dependency) (pushed : List Package) (f' : List Dependency)
      (p' : List Package), stepDeps ws s c ds found pushed = .ok (f', p') →
      ∀ q : Package, (q ∈ p' ↔ q ∈ pushed ∨ ∃ d ∈ ds, effectiveDep ws.criteria d = true ∧
        findMember ws d.package_name = some q) := by
  intro ds
  induction ds with
  | nil =>
    intro found pushed f' p' h q
    rw [stepDeps] at h
    obtain ⟨-, h2⟩ := Prod.mk.inj (Except.ok.inj h)
    simp [← h2]
  | cons d ds ih =>
    intro found pushed f' p' h q
    rw [stepDeps] at h
    split at h
    · rename_i h1
      split at h
      · rename_i h2
        have hd : effectiveDep ws.criteria d = false := by simp [effectiveDep, h2]
        rw [ih _ _ _ _ h q]
        simp only [List.mem_cons]
        constructor
        · rintro (hq | ⟨d', hd', he, hfq⟩)
          · exact Or.inl hq
          · exact Or.inr ⟨d', Or.inr hd', he, hfq⟩
        · rintro (hq | ⟨d', rfl | hd', he, hfq⟩)
          · exact Or.inl hq
          · rw [hd] at he
            exact absurd he (by simp)
          · exact Or.inr ⟨d', hd', he, hfq⟩
      · rename_i h2
        split at h
        · rename_i h3
          have hd : effectiveDep ws.criteria d = false := by simp [effectiveDep, h3]
          rw [ih _ _ _ _ h q]
          simp only [List.mem_cons]
          constructor
          · rintro (hq | ⟨d', hd', he, hfq⟩)
            · exact Or.inl hq
            · exact Or.inr ⟨d', Or.inr hd', he, hfq⟩
          · rintro (hq | ⟨d', rfl | hd', he, hfq⟩)
            · exact Or.inl hq
            · rw [hd] at he
              exact absurd he (by simp)
            · exact Or.inr ⟨d', hd', he, hfq⟩
        · rename_i h3
          have hde : effectiveDep ws.criteria d = true :=
            (effectiveDep_iff ws.criteria d).mpr
              ⟨h1, by simpa using h2, by simpa using h3⟩
          split at h
          · rename_i dp hf
            split at h
            · simp at h
            · rename_i hn
              rw [ih _ _ _ _ h q]
              simp only [List.mem_append, List.mem_cons]
              constructor
              · rintro ((hq | rfl | hq) | ⟨d', hd', he, hfq⟩)
                · exact Or.inl hq
                · exact Or.inr ⟨d, Or.inl rfl, hde, hf⟩
                · exact absurd hq (by simp)
                · exact Or.inr ⟨d', Or.inr hd', he, hfq⟩
              · rintro (hq | ⟨d', rfl | hd', he, hfq⟩)
                · exact Or.inl (Or.inl hq)
                · rw [hf] at hfq
                  exact Or.inl (Or.inr (Or.inl (Option.some.inj hfq).symm))
                · exact Or.inr ⟨d', hd', he, hfq⟩
          · rename_i hf
            rw [ih _ _ _ _ h q]
            simp only [List.mem_cons]
            constructor
            · rintro (hq | ⟨d', hd', he, hfq⟩)
              · exact Or.inl hq
              · exact Or.inr ⟨d', Or.inr hd', he, hfq⟩
            · rintro (hq | ⟨d', rfl | hd', he, hfq⟩)
              · exact Or.inl hq
              · rw [hf] at hfq
                exact absurd hfq (by simp)
              · exact Or.inr ⟨d', hd', he, hfq⟩
    · rename_i h1
      have h1' : d.is_path = false := by simpa using h1
      have hd : effectiveDep ws.criteria d = false := by simp [effectiveDep, h1']
      rw [ih _ _ _ _ h q]
      simp only [List.mem_cons]
      constructor
      · rintro (hq | ⟨d', hd', he, hfq⟩)
        · exact Or.inl hq
        · exact Or.inr ⟨d', Or.inr hd', he, hfq⟩
      · rintro (hq | ⟨d', rfl | hd', he, hfq⟩)
        · exact Or.inl hq
        · rw [hd] at he
          exact absurd he (by simp)
        · exact Or.inr ⟨d', hd', he, hfq⟩

/-- Processing a manifest whose remaining declarations name the origin crate
can never return normally: the bail-out fires first or an earlier declaration
already failed. -/
theorem stepDeps_bad (ws : ReleaseWorkspace) (s c : String) :
    ∀ (ds found : List Dependency) (pushed : List Package),
      (∃ d ∈ ds, effectiveDep ws.criteria d = true ∧
        ∃ q, findMember ws d.package_name = some q ∧ q.name = s) →
      ∀ r, stepDeps ws s c ds found pushed ≠ .ok r := by
  intro ds
  induction ds with
  | nil =>
    rintro found pushed ⟨d, hd, -⟩ r
    exact absurd hd (by simp)
  | cons d ds ih =>
    rintro found pushed ⟨d', hd', he', q, hq, hqs⟩ r h
    rw [stepDeps] at h
    rcases List.mem_cons.mp hd' with rfl | hmem
    · obtain ⟨h1, h2, h3⟩ := (effectiveDep_iff ws.criteria d').mp he'
      rw [if_pos h1, if_neg (by simp [h2]), if_neg (by simp [h3])] at h
      split at h
      · rename_i dp hf
        have hdpq : dp = q := Option.some.inj (hf.symm.trans hq)
        rw [if_pos (by rw [hdpq]; exact hqs)] at h
        simp at h
      · rename_i hf
        rw [hq] at hf
        simp at hf
    · split at h
      · split at h
        · exact ih _ _ ⟨d', hmem, he', q, hq, hqs⟩ r h
        · split at h
          · exact ih _ _ ⟨d', hmem, he', q, hq, hqs⟩ r h
          · split at h
            · split at h
              · simp at h
              · exact ih _ _ ⟨d', hmem, he', q, hq, hqs⟩ r h
            · exact ih _ _ ⟨d', hmem, he', q, hq, hqs⟩ r h
      · exact ih _ _ ⟨d', hmem, he', q, hq, hqs⟩ r h

/-- An effective edge into a fixed member makes the source manifest bad for
that member's name. -/
theorem badFor_of_edge (ws : ReleaseWorkspace) (p q : Package) (h : edge ws p q) :
    badFor ws q.name p := by
  obtain ⟨d, hd, hf⟩ := List.mem_filterMap.mp h
  exact ⟨d, hd, q, hf, rfl⟩

/-- The work-list loop never returns normally while some queued manifest can
still reach a bad one: the traversal either runs out of fuel or bails out. -/
theorem depsLoop_no_ok (ws : ReleaseWorkspace) (s : String) :
    ∀ (n : Nat) (found : List Dependency) (queue : List Package),
      (∃ p ∈ queue, ∃ cp, Relation.ReflTransGen (edge ws) p cp ∧ badFor ws s cp) →
      ∀ l, depsLoop ws s n found queue ≠ .ok l := by
  intro n
  induction n with
  | zero =>
    intro found queue _ l h
    exact absurd h (by simp [depsLoop])
  | succ n ih =>
    rintro found queue ⟨p0, hp0, cp, hreach, hbad⟩ l h
    match queue, hp0 with
    | p :: rest, hp0 =>
      rw [depsLoop] at h
      split at h
      · simp at h
      · rename_i f' pushed hst
        rcases List.mem_cons.mp hp0 with rfl | hp0rest
        · rcases Relation.ReflTransGen.cases_head hreach with rfl | ⟨x, hx, hxreach⟩
          · obtain ⟨d, hd, q, hq, hqs⟩ := hbad
            have hd' := List.mem_filter.mp hd
            exact stepDeps_bad ws s p0.name p0.dependencies found []
              ⟨d, hd'.1, hd'.2, q, hq, hqs⟩ (f', pushed) hst
          · have hxp : x ∈ pushed := by
              rw [stepDeps_ok_pushed ws s p0.name _ _ _ _ _ hst x]
              obtain ⟨d, hd, hf⟩ := List.mem_filterMap.mp hx
              have hd' := List.mem_filter.mp hd
              exact Or.inr ⟨d, hd'.1, hd'.2, hf⟩
            exact ih f' (pushed.reverse ++ rest)
              ⟨x, by simp [hxp], cp, hxreach, hbad⟩ l h
        · exact ih f' (pushed.reverse ++ rest)
            ⟨p0, by simp [hp0rest], cp, hreach, hbad⟩ l h

/-- Claim C5, counterexample: in the workspace `x → z`, `z ↔ w` the members
`z` and `w` transitively depend on themselves, yet computing the dependency
set of `x` — and with it `members()` — never fails with the cycle error: the
traversal bounces between `z` and `w` forever, because the bail-out only
fires when the origin crate itself reappears. -/
theorem claim_C5_counterexample :
    hasSelfCycle wsC5 ∧ depsDiverges wsC5 pcx ∧ membersDiverges wsC5 := by
  have hzw : edge wsC5 pcz pcw := show pcw ∈ pushListOf wsC5 pcz by decide
  have hwz : edge wsC5 pcw pcz := show pcz ∈ pushListOf wsC5 pcw by decide
  have hloop : ∀ (n : Nat) (found : List Dependency) (queue : List Package), queue ≠ [] →
      (∀ p ∈ queue, p = pcz ∨ p = pcw) → depsLoop wsC5 "x" n found queue = .outOfFuel := by
    intro n
    induction n with
    | zero => intro found queue _ _; rfl
    | succ n ih =>
      intro found queue hne hmem
      match queue with
      | [] => exact absurd rfl hne
      | p :: rest =>
        rcases hmem p (by simp) with rfl | rfl
        · have hstep : stepDeps wsC5 "x" pcz.name pcz.dependencies found [] =
              .ok (lhsInsert found (pathDep "w"), [pcw]) := rfl
          rw [depsLoop, hstep]
          exact ih _ _ (by simp) (by
            intro p hp
            rcases List.mem_append.mp hp with hp | hp
            · simp at hp
              simp [hp]
            · exact hmem p (by simp [hp]))
        · have hstep : stepDeps wsC5 "x" pcw.name pcw.dependencies found [] =
              .ok (lhsInsert found (pathDep "z"), [pcz]) := rfl
          rw [depsLoop, hstep]
          exact ih _ _ (by simp) (by
            intro p hp
            rcases List.mem_append.mp hp with hp | hp
            · simp at hp
              simp [hp]
            · exact hmem p (by simp [hp]))
  have hdiv : depsDiverges wsC5 pcx := by
    intro n
    unfold dependenciesInWorkspace
    match n with
    | 0 => rfl
    | n + 1 =>
      have hstep : stepDeps wsC5 "x" pcx.name pcx.dependencies [] [] =
          .ok ([pathDep "z"], [pcz]) := rfl
      show depsLoop wsC5 pcx.name (n + 1) [] [pcx] = .outOfFuel
      rw [depsLoop]
      rw [show pcx.name = "x" from rfl] at hstep ⊢
      rw [hstep]
      exact hloop n _ _ (by simp) (by intro p hp; simp at hp; simp [hp])
  refine ⟨⟨pcz, by simp [wsC5, mkWs], Relation.TransGen.tail (Relation.TransGen.single hzw) hwz⟩, hdiv, ?_⟩
  intro n
  unfold membersFuel
  have h1 : depNamesFold wsC5 n wsC5.members_unsorted = .outOfFuel := by
    rw [show wsC5.members_unsorted = [pcx, pcz, pcw] from rfl]
    rw [depNamesFold, hdiv n]
  rw [h1]

/-- Claim C5, amended: whenever a crate transitively depends on itself
through effective intra-workspace path dependencies, its dependency-set
computation never returns a result — with any fuel it either keeps running or
fails with the cycle error naming the crate itself as one endpoint. -/
theorem claim_C5_amended (ws : ReleaseWorkspace) (P : Package) (n : Nat)
    (h : Relation.TransGen (edge ws) P P) :
    dependenciesInWorkspace ws P n = .outOfFuel ∨
      ∃ b, dependenciesInWorkspace ws P n = .err (.dependencyCycle P.name b) := by
  obtain ⟨cp, hreach, hlast⟩ := Relation.TransGen.tail'_iff.mp h
  have hbad : badFor ws P.name cp := badFor_of_edge ws cp P hlast
  cases hres : dependenciesInWorkspace ws P n with
  | ok l =>
    exact absurd hres
      (depsLoop_no_ok ws P.name n [] [P] ⟨P, by simp, cp, hreach, hbad⟩ l)
  | err e =>
    obtain ⟨b, hb⟩ := depsLoop_err ws P.name n [] [P] e hres
    exact Or.inr ⟨b, by rw [hb]⟩
  | outOfFuel => exact Or.inl rfl

/-- Witness for the amended claim C5: in the counterexample workspace the
crate `z` lies on the two-cycle with `w`, and its own dependency computation
at fuel 5 indeed yields the cycle error naming `z`. -/
theorem claim_C5_amended_witness :
    Relation.TransGen (edge wsC5) pcz pcz ∧
      (dependenciesInWorkspace wsC5 pcz 5 = .outOfFuel ∨
        ∃ b, dependenciesInWorkspace wsC5 pcz 5 = .err (.dependencyCycle pcz.name b)) := by
  have hzw : edge wsC5 pcz pcw := show pcw ∈ pushListOf wsC5 pcz by decide
  have hwz : edge wsC5 pcw pcz := show pcz ∈ pushListOf wsC5 pcw by decide
  have htg : Relation.TransGen (edge wsC5) pcz pcz :=
    Relation.TransGen.tail (Relation.TransGen.single hzw) hwz
  exact ⟨htg, claim_C5_amended wsC5 pcz 5 htg⟩

/-- Membership after a LinkedHashSet insert. -/
theorem lhsInsert_mem (l : List Dependency) (d x : Dependency) :
    x ∈ lhsInsert l d ↔ x ∈ l ∨ x = d := by
  unfold lhsInsert
  by_cases hx : x = d
  · simp [hx]
  · simp [hx, List.mem_filter]

/-- LinkedHashSet inserts keep the set duplicate-free. -/
theorem lhsInsert_nodup (l : List Dependency) (d : Dependency) (h : l.Nodup) :
    (lhsInsert l d).Nodup := by
  unfold lhsInsert
  rw [List.nodup_append]
  refine ⟨List.Nodup.filter _ h, List.nodup_singleton d, ?_⟩
  intro x hx hxd
  rw [List.mem_filter] at hx
  rw [List.mem_singleton] at hxd
  rw [hxd] at hx
  simp at hx

/-- Membership in the found set of one processed manifest: the effective
declarations of the run are added, nothing is removed. -/
theorem stepDeps_ok_found (ws : ReleaseWorkspace) (s c : String) :
    ∀ (ds found : List Dependency) (pushed : List Package) (f' : List Dependency)
      (p' : List Package), stepDeps ws s c ds found pushed = .ok (f', p') →
      ∀ x : Dependency, (x ∈ f' ↔ x ∈ found ∨ (x ∈ ds ∧ effectiveDep ws.criteria x = true)) := by
  intro ds
  induction ds with
  | nil =>
    intro found pushed f' p' h x
    rw [stepDeps] at h
    obtain ⟨h1, -⟩ := Prod.mk.inj (Except.ok.inj h)
    simp [← h1]
  | cons d ds ih =>
    intro found pushed f' p' h x
    rw [stepDeps] at h
    split at h
    · rename_i h1
      split at h
      · rename_i h2
        have hd : effectiveDep ws.criteria d = false := by simp [effectiveDep, h2]
        rw [ih _ _ _ _ h x]
        simp only [List.mem_cons]
        constructor
        · rintro (hx | ⟨hx, he⟩)
          · exact Or.inl hx
          · exact Or.inr ⟨Or.inr hx, he⟩
        · rintro (hx | ⟨rfl | hx, he⟩)
          · exact Or.inl hx
          · rw [hd] at he
            exact absurd he (by simp)
          · exact Or.inr ⟨hx, he⟩
      · rename_i h2
        split at h
        · rename_i h3
          have hd : effectiveDep ws.criteria d = false := by simp [effectiveDep, h3]
          rw [ih _ _ _ _ h x]
          simp only [List.mem_cons]
          constructor
          · rintro (hx | ⟨hx, he⟩)
            · exact Or.inl hx
            · exact Or.inr ⟨Or.inr hx, he⟩
          · rintro (hx | ⟨rfl | hx, he⟩)
            · exact Or.inl hx
            · rw [hd] at he
              exact absurd he (by simp)
            · exact Or.inr ⟨hx, he⟩
        · rename_i h3
          have hde : effectiveDep ws.criteria d = true :=
            (effectiveDep_iff ws.criteria d).mpr
              ⟨h1, by simpa using h2, by simpa using h3⟩
          have hstep : ∀ (pu : List Package),
              stepDeps ws s c ds (lhsInsert found d) pu = .ok (f', p') →
              (x ∈ f' ↔ x ∈ (d :: ds) ∧ effectiveDep ws.criteria x = true ∨ x ∈ found) := by
            intro pu hrec
            rw [ih _ _ _ _ hrec x, lhsInsert_mem]
            simp only [List.mem_cons]
            constructor
            · rintro ((hx | rfl) | ⟨hx, he⟩)
              · exact Or.inr hx
              · exact Or.inl ⟨Or.inl rfl, hde⟩
              · exact Or.inl ⟨Or.inr hx, he⟩
            · rintro (⟨rfl | hx, he⟩ | hx)
              · exact Or.inl (Or.inr rfl)
              · exact Or.inr ⟨hx, he⟩
              · exact Or.inl (Or.inl hx)
          split at h
          · rename_i dp hf
            split at h
            · simp at h
            · rw [hstep _ h]
              tauto
          · rw [hstep _ h]
            tauto
    · rename_i h1
      have h1' : d.is_path = false := by simpa using h1
      have hd : effectiveDep ws.criteria d = false := by simp [effectiveDep, h1']
      rw [ih _ _ _ _ h x]
      simp only [List.mem_cons]
      constructor
      · rintro (hx | ⟨hx, he⟩)
        · exact Or.inl hx
        · exact Or.inr ⟨Or.inr hx, he⟩
      · rintro (hx | ⟨rfl | hx, he⟩)
        · exact Or.inl hx
        · rw [hd] at he
          exact absurd he (by simp)
        · exact Or.inr ⟨hx, he⟩

/-- Processing one manifest keeps the found set duplicate-free. -/
theorem stepDeps_ok_nodup (ws : ReleaseWorkspace) (s c : String) :
    ∀ (ds found : List Dependency) (pushed : List Package) (f' : List Dependency)
      (p' : List Package), stepDeps ws s c ds found pushed = .ok (f', p') →
      found.Nodup → f'.Nodup := by
  intro ds
  induction ds with
  | nil =>
    intro found pushed f' p' h hn
    rw [stepDeps] at h
    obtain ⟨h1, -⟩ := Prod.mk.inj (Except.ok.inj h)
    rw [← h1]
    exact hn
  | cons d ds ih =>
    intro found pushed f' p' h hn
    rw [stepDeps] at h
    split at h
    · split at h
      · exact ih _ _ _ _ h hn
      · split at h
        · exact ih _ _ _ _ h hn
        · split at h
          · split at h
            · simp at h
            · exact ih _ _ _ _ h (lhsInsert_nodup _ _ hn)
          · exact ih _ _ _ _ h (lhsInsert_nodup _ _ hn)
    · exact ih _ _ _ _ h hn

/-- Characterisation of a successful traversal: the returned set holds the
initial found set plus every effective declaration of a manifest reachable
(through effective edges) from some queued manifest.  No acyclicity is
needed: success itself means the traversal visited everything. -/
theorem depsLoop_ok_mem (ws : ReleaseWorkspace) (s : String) :
    ∀ (n : Nat) (found : List Dependency) (queue : List Package) (l : List Dependency),
      depsLoop ws s n found queue = .ok l →
      ∀ x : Dependency, (x ∈ l ↔ x ∈ found ∨ ∃ p ∈ queue, ∃ r,
        Relation.ReflTransGen (edge ws) p r ∧ x ∈ effDeps ws.criteria r) := by
  intro n
  induction n with
  | zero =>
    intro found queue l h
    simp [depsLoop] at h
  | succ n ih =>
    intro found queue l h x
    match queue with
    | [] =>
      rw [depsLoop] at h
      rw [← RunRes.ok.inj h]
      simp
    | p :: rest =>
      rw [depsLoop] at h
      split at h
      · simp at h
      · rename_i f' pushed hst
        rw [ih _ _ _ h x]
        rw [stepDeps_ok_found ws s p.name _ _ _ _ _ hst x]
        constructor
        · rintro ((hx | ⟨hx, he⟩) | ⟨p', hp', r, hr, hx⟩)
          · exact Or.inl hx
          · exact Or.inr ⟨p, by simp, p, Relation.ReflTransGen.refl,
              List.mem_filter.mpr ⟨hx, he⟩⟩
          · rcases List.mem_append.mp hp' with hp' | hp'
            · rw [List.mem_reverse] at hp'
              have hedge : edge ws p p' := by
                rw [stepDeps_ok_pushed ws s p.name _ _ _ _ _ hst p'] at hp'
                rcases hp' with hp' | ⟨d, hd, he, hf⟩
                · exact absurd hp' (by simp)
                · exact List.mem_filterMap.mpr ⟨d, List.mem_filter.mpr ⟨hd, he⟩, hf⟩
              exact Or.inr ⟨p, by simp, r, Relation.ReflTransGen.head hedge hr, hx⟩
            · exact Or.inr ⟨p', by simp [hp'], r, hr, hx⟩
        · rintro (hx | ⟨p', hp', r, hr, hx⟩)
          · exact Or.inl (Or.inl hx)
          · rcases List.mem_cons.mp hp' with rfl | hp'rest
            · rcases Relation.ReflTransGen.cases_head hr with rfl | ⟨y, hy, hyr⟩
              · have hx' := List.mem_filter.mp hx
                exact Or.inl (Or.inr ⟨hx'.1, hx'.2⟩)
              · have hyp : y ∈ pushed := by
                  rw [stepDeps_ok_pushed ws s p'.name _ _ _ _ _ hst y]
                  obtain ⟨d, hd, hf⟩ := List.mem_filterMap.mp hy
                  have hd' := List.mem_filter.mp hd
                  exact Or.inr ⟨d, hd'.1, hd'.2, hf⟩
                exact Or.inr ⟨y, by simp [hyp], r, hyr, hx⟩
            · exact Or.inr ⟨p', by simp [hp'rest], r, hr, hx⟩

/-- A successful traversal returns a duplicate-free set. -/
theorem depsLoop_ok_nodup (ws : ReleaseWorkspace) (s : String) :
    ∀ (n : Nat) (found : List Dependency) (queue : List Package) (l : List Dependency),
      depsLoop ws s n found queue = .ok l → found.Nodup → l.Nodup := by
  intro n
  induction n with
  | zero =>
    intro found queue l h
    simp [depsLoop] at h
  | succ n ih =>
    intro found queue l h hn
    match queue with
    | [] =>
      rw [depsLoop] at h
      rw [← RunRes.ok.inj h]
      exact hn
    | p :: rest =>
      rw [depsLoop] at h
      split at h
      · simp at h
      · rename_i f' pushed hst
        exact ih _ _ _ h (stepDeps_ok_nodup ws s p.name _ _ _ _ _ hst hn)

/-- Fuel monotonicity: once the traversal completes, more fuel returns the
same set. -/
theorem depsLoop_mono (ws : ReleaseWorkspace) (s : String) :
    ∀ (n m : Nat) (found : List Dependency) (queue : List Package) (l : List Dependency),
      depsLoop ws s n found queue = .ok l → n ≤ m →
      depsLoop ws s m found queue = .ok l := by
  intro n
  induction n with
  | zero =>
    intro m found queue l h
    simp [depsLoop] at h
  | succ n ih =>
    intro m found queue l h hm
    match m, hm with
    | m + 1, hm =>
      match queue with
      | [] =>
        rw [depsLoop] at h ⊢
        exact h
      | p :: rest =>
        rw [depsLoop] at h ⊢
        split at h
        · simp at h
        · rename_i f' pushed hst
          exact ih m _ _ _ h (Nat.le_of_succ_le_succ hm)

/-- Closed form of one processed manifest when no declaration resolves back
to the origin: the effective declarations are inserted in order and their
member resolutions appended to the pushes. -/
theorem stepDeps_closed (ws : ReleaseWorkspace) (s c : String) :
    ∀ (ds found : List Dependency) (pushed : List Package),
      (∀ d ∈ ds, effectiveDep ws.criteria d = true →
        ∀ q, findMember ws d.package_name = some q → ¬q.name = s) →
      stepDeps ws s c ds found pushed =
        .ok (insFold found (ds.filter (effectiveDep ws.criteria)),
          pushed ++ pushCands ws ds) := by
  intro ds
  induction ds with
  | nil =>
    intro found pushed hnb
    simp [stepDeps, insFold, pushCands]
  | cons d ds ih =>
    intro found pushed hnb
    rw [stepDeps]
    by_cases h1 : d.is_path = true
    · rw [if_pos h1]
      by_cases h2 : (d.optional && ws.criteria.exclude_optional_deps) = true
      · rw [if_pos h2]
        have hd : effectiveDep ws.criteria d = false := by simp [effectiveDep, h2]
        rw [ih _ _ (fun d' hd' => hnb d' (List.mem_cons_of_mem d hd'))]
        rw [List.filter_cons_of_neg (by simp [hd]),
          show pushCands ws (d :: ds) = pushCands ws ds from by
            unfold pushCands
            rw [List.filter_cons_of_neg (by simp [hd])]]
      · rw [if_neg h2]
        by_cases h3 : decide (d.kind ∈ ws.criteria.exclude_dep_kinds) = true
        · rw [if_pos h3]
          have hd : effectiveDep ws.criteria d = false := by simp [effectiveDep, h3]
          rw [ih _ _ (fun d' hd' => hnb d' (List.mem_cons_of_mem d hd'))]
          rw [List.filter_cons_of_neg (by simp [hd]),
            show pushCands ws (d :: ds) = pushCands ws ds from by
              unfold pushCands
              rw [List.filter_cons_of_neg (by simp [hd])]]
        · rw [if_neg h3]
          have hde : effectiveDep ws.criteria d = true :=
            (effectiveDep_iff ws.criteria d).mpr
              ⟨h1, by simpa using h2, by simpa using h3⟩
          have hfc : (d :: ds).filter (effectiveDep ws.criteria) =
              d :: ds.filter (effectiveDep ws.criteria) :=
            List.filter_cons_of_pos hde
          cases hf : findMember ws d.package_name with
          | some dp =>
            have hdp : ¬dp.name = s := hnb d (by simp) hde dp hf
            show (if dp.name = s then Except.error (s, c)
              else stepDeps ws s c ds (lhsInsert found d) (pushed ++ [dp])) = _
            rw [if_neg hdp]
            rw [ih _ _ (fun d' hd' => hnb d' (List.mem_cons_of_mem d hd'))]
            rw [hfc]
            have hpc : pushCands ws (d :: ds) = dp :: pushCands ws ds := by
              unfold pushCands
              rw [List.filter_cons_of_pos hde]
              simp [List.filterMap_cons, hf]
            rw [hpc, show insFold found (d :: ds.filter (effectiveDep ws.criteria)) =
              insFold (lhsInsert found d) (ds.filter (effectiveDep ws.criteria)) from rfl]
            simp
          | none =>
            show stepDeps ws s c ds (lhsInsert found d) pushed = _
            rw [ih _ _ (fun d' hd' => hnb d' (List.mem_cons_of_mem d hd'))]
            rw [hfc]
            have hpc : pushCands ws (d :: ds) = pushCands ws ds := by
              unfold pushCands
              rw [List.filter_cons_of_pos hde]
              simp [List.filterMap_cons, hf]
            rw [hpc, show insFold found (d :: ds.filter (effectiveDep ws.criteria)) =
              insFold (lhsInsert found d) (ds.filter (effectiveDep ws.criteria)) from rfl]
    · rw [if_neg h1]
      have h1' : d.is_path = false := by simpa using h1
      have hd : effectiveDep ws.criteria d = false := by simp [effectiveDep, h1']
      rw [ih _ _ (fun d' hd' => hnb d' (List.mem_cons_of_mem d hd'))]
      rw [List.filter_cons_of_neg (by simp [hd]),
        show pushCands ws (d :: ds) = pushCands ws ds from by
          unfold pushCands
          rw [List.filter_cons_of_neg (by simp [hd])]]

/-- Push candidates are workspace members. -/
theorem pushCands_mem (ws : ReleaseWorkspace) (ds : List Dependency) (q : Package)
    (h : q ∈ pushCands ws ds) : q ∈ ws.members_unsorted := by
  obtain ⟨d, -, hf⟩ := List.mem_filterMap.mp h
  exact List.mem_of_find?_eq_some hf

/-- The effective edge relation refines the raw path-dependency relation. -/
theorem edge_sub_pathEdge (ws : ReleaseWorkspace) (p q : Package) (h : edge ws p q) :
    pathEdge ws p q := by
  obtain ⟨d, hd, hf⟩ := List.mem_filterMap.mp h
  have hd' := List.mem_filter.mp hd
  have hpath : d.is_path = true := ((effectiveDep_iff _ _).mp hd'.2).1
  exact List.mem_filterMap.mpr ⟨d, List.mem_filter.mpr ⟨hd'.1, hpath⟩, hf⟩

/-- Targets of the raw path-dependency relation are members. -/
theorem pathEdge_mem (ws : ReleaseWorkspace) (p q : Package) (h : pathEdge ws p q) :
    q ∈ ws.members_unsorted := by
  obtain ⟨d, -, hf⟩ := List.mem_filterMap.mp h
  exact List.mem_of_find?_eq_some hf

/-- On a workspace whose effective edge relation is acyclic, the child
relation of the termination measure is well-founded: members are finitely
many and the transitive closure is a strict order on them. -/
theorem childRel_wf (ws : ReleaseWorkspace)
    (hac : ∀ p : Package, ¬Relation.TransGen (edge ws) p p) :
    WellFounded (childRel ws) := by
  haveI hfin : Finite (MemberOf ws) :=
    Set.Finite.to_subtype (List.finite_toSet ws.members_unsorted)
  haveI htr : IsTrans (MemberOf ws) (fun a b => Relation.TransGen (edge ws) b.1 a.1) :=
    ⟨fun _ _ _ hab hbc => Relation.TransGen.trans hbc hab⟩
  haveI hirr : IsIrrefl (MemberOf ws) (fun a b => Relation.TransGen (edge ws) b.1 a.1) :=
    ⟨fun a h => hac a.1 h⟩
  have hwf := Finite.wellFounded_of_trans_of_irrefl
    (fun a b : MemberOf ws => Relation.TransGen (edge ws) b.1 a.1)
  have hsub : Subrelation (childRel ws)
      (fun a b : MemberOf ws => Relation.TransGen (edge ws) b.1 a.1) :=
    fun h => Relation.TransGen.single h
  exact Subrelation.wf hsub hwf

/-- The weight equation: a member weighs one more than its pushes together. -/
theorem wt_eq (ws : ReleaseWorkspace) (hwf : WellFounded (childRel ws)) (p : Package)
    (hp : p ∈ ws.members_unsorted) :
    wt ws hwf p = 1 + wtSum ws hwf (pushListOf ws p) := by
  unfold wt
  rw [dif_pos hp]
  show wtM ws hwf ⟨p, hp⟩ = _
  unfold wtM
  rw [WellFounded.fix_eq]
  unfold wtSum
  refine congrArg (fun t => 1 + t) (congrArg List.sum ?_)
  refine (List.map_congr_left ?_).trans (List.attach_map_val (pushListOf ws p) (wt ws hwf))
  intro q hq
  have hmem : q.1 ∈ ws.members_unsorted := by
    obtain ⟨d, hd, hf⟩ := List.mem_filterMap.mp q.2
    exact List.mem_of_find?_eq_some hf
  show _ = wt ws hwf q.1
  rw [wt, dif_pos hmem]
  rfl

/-- Termination of the traversal: when the effective edges are well-founded,
no queued manifest can reach a bail-out, all queued manifests are reachable
members, and the fuel exceeds the total queue weight, the loop completes. -/
theorem depsLoop_terminates (ws : ReleaseWorkspace) (P : Package)
    (hwf : WellFounded (childRel ws))
    (hnb : ∀ p, Relation.ReflTransGen (edge ws) P p → ¬badFor ws P.name p) :
    ∀ (n : Nat) (found : List Dependency) (queue : List Package),
      (∀ q ∈ queue, q ∈ ws.members_unsorted) →
      (∀ q ∈ queue, Relation.ReflTransGen (edge ws) P q) →
      wtSum ws hwf queue < n →
      ∃ l, depsLoop ws P.name n found queue = .ok l := by
  intro n
  induction n with
  | zero =>
    intro found queue _ _ hlt
    exact absurd hlt (by simp)
  | succ n ih =>
    intro found queue hmem hreach hlt
    match queue with
    | [] => exact ⟨found, rfl⟩
    | p :: rest =>
      have hpm : p ∈ ws.members_unsorted := hmem p (by simp)
      have hpr : Relation.ReflTransGen (edge ws) P p := hreach p (by simp)
      have hnbad : ¬badFor ws P.name p := hnb p hpr
      have hcond : ∀ d ∈ p.dependencies, effectiveDep ws.criteria d = true →
          ∀ q, findMember ws d.package_name = some q → ¬q.name = P.name := by
        intro d hd he q hf hqn
        exact hnbad ⟨d, List.mem_filter.mpr ⟨hd, he⟩, q, hf, hqn⟩
      have hst := stepDeps_closed ws P.name p.name p.dependencies found [] hcond
      have hpush : pushCands ws p.dependencies = pushListOf ws p := rfl
      have hsum : wtSum ws hwf (([] ++ pushCands ws p.dependencies).reverse ++ rest) =
          wtSum ws hwf (pushListOf ws p) + wtSum ws hwf rest := by
        unfold wtSum
        rw [List.nil_append, List.map_append, List.sum_append, List.map_reverse,
          List.sum_reverse, hpush]
      have hlt' : wtSum ws hwf (([] ++ pushCands ws p.dependencies).reverse ++ rest) < n := by
        rw [hsum]
        have hq : wtSum ws hwf (p :: rest) = wt ws hwf p + wtSum ws hwf rest := by
          unfold wtSum
          simp
        rw [hq, wt_eq ws hwf p hpm] at hlt
        omega
      obtain ⟨l, hl⟩ := ih (insFold found (p.dependencies.filter (effectiveDep ws.criteria)))
        (([] ++ pushCands ws p.dependencies).reverse ++ rest)
        (by
          intro q hq
          rcases List.mem_append.mp hq with hq | hq
          · rw [List.mem_reverse] at hq
            exact pushCands_mem ws p.dependencies q (by simpa using hq)
          · exact hmem q (by simp [hq]))
        (by
          intro q hq
          rcases List.mem_append.mp hq with hq | hq
          · rw [List.mem_reverse] at hq
            simp only [List.nil_append] at hq
            exact Relation.ReflTransGen.tail hpr hq
          · exact hreach q (by simp [hq]))
        hlt'
      refine ⟨l, ?_⟩
      rw [depsLoop, hst]
      exact hl

/-- Claim C6: on a workspace with unique member names whose raw
intra-workspace path-dependency relation is acyclic, the dependency
computation of every member terminates with enough fuel, returns a
duplicate-free ordered set holding exactly the effective path-sourced
declarations of the manifests reachable from the member, and recomputation
with any larger fuel returns the identical ordered set. -/
theorem claim_C6 (ws : ReleaseWorkspace) (P : Package)
    (hP : P ∈ ws.members_unsorted)
    (hnd : (ws.members_unsorted.map Package.name).Nodup)
    (hac : ∀ q : Package, ¬Relation.TransGen (pathEdge ws) q q) :
    ∃ n l, dependenciesInWorkspace ws P n = .ok l ∧ l.Nodup ∧
      (∀ d : Dependency, d ∈ l ↔ ∃ r, Relation.ReflTransGen (edge ws) P r ∧
        d ∈ effDeps ws.criteria r) ∧
      (∀ m, n ≤ m → dependenciesInWorkspace ws P m = .ok l) := by
  have hac' : ∀ q : Package, ¬Relation.TransGen (edge ws) q q := fun q h =>
    hac q (Relation.TransGen.mono (edge_sub_pathEdge ws) h)
  have hwf : WellFounded (childRel ws) := childRel_wf ws hac'
  have hnb : ∀ p, Relation.ReflTransGen (edge ws) P p → ¬badFor ws P.name p := by
    rintro p hp ⟨d, hd, q, hq, hqn⟩
    have hqm : q ∈ ws.members_unsorted := List.mem_of_find?_eq_some hq
    have hqP : q = P := by
      have := List.inj_on_of_nodup_map hnd hqm hP
      exact this hqn
    have hedge : edge ws p P := by
      rw [← hqP]
      exact List.mem_filterMap.mpr ⟨d, hd, hq⟩
    exact hac' P (Relation.TransGen.tail' hp hedge)
  obtain ⟨l, hl⟩ := depsLoop_terminates ws P hwf hnb (wtSum ws hwf [P] + 1) [] [P]
    (by
      intro q hq
      simp at hq
      rw [hq]
      exact hP)
    (by
      intro q hq
      simp at hq
      rw [hq])
    (by omega)
  refine ⟨wtSum ws hwf [P] + 1, l, hl, ?_, ?_, ?_⟩
  · exact depsLoop_ok_nodup ws P.name _ _ _ _ hl (by simp)
  · intro d
    rw [depsLoop_ok_mem ws P.name _ _ _ _ hl d]
    simp
  · intro m hm
    exact depsLoop_mono ws P.name _ m _ _ _ hl hm

/-- The witness workspace `a → b` has no raw path-dependency cycle. -/
theorem wsAB_acyclic : ∀ q : Package, ¬Relation.TransGen (pathEdge wsAB) q q := by
  have hB : ∀ x, ¬pathEdge wsAB paB x := by
    intro x hx
    have hx' : x ∈ ([] : List Package) := hx
    exact absurd hx' (by simp)
  have hA : ∀ y, pathEdge wsAB paA y → y = paB := by
    intro y hy
    have hy' : y ∈ [paB] := hy
    exact List.mem_singleton.mp hy'
  intro q h
  obtain ⟨c, hreach, hlast⟩ := Relation.TransGen.tail'_iff.mp h
  have hq : q ∈ wsAB.members_unsorted := pathEdge_mem wsAB c q hlast
  have hq' : q = paA ∨ q = paB := by
    have : q ∈ [paA, paB] := hq
    simpa using this
  rcases hq' with rfl | rfl
  · have hc : c = paA ∨ c = paB := by
      rcases Relation.ReflTransGen.cases_head hreach with rfl | ⟨y, hy, hyr⟩
      · exact Or.inl rfl
      · rw [hA y hy] at hyr
        rcases Relation.ReflTransGen.cases_head hyr with rfl | ⟨y', hy', -⟩
        · exact Or.inr rfl
        · exact absurd hy' (hB y')
    rcases hc with rfl | rfl
    · exact absurd (hA paA hlast) (by decide)
    · exact hB paA hlast
  · rcases Relation.ReflTransGen.cases_head hreach with rfl | ⟨y, hy, -⟩
    · exact hB paB hlast
    · exact absurd hy (hB y)

/-- Membership after a BitFlags insert. -/
theorem bfContains_bfInsert (l : List CrateStateFlags) (f g : CrateStateFlags) :
    bfContains (bfInsert l f) g = (bfContains l g || decide (g = f)) := by
  unfold bfInsert bfContains
  split
  · rename_i h
    by_cases hg : g = f <;> simp [hg, h]
  · simp [List.mem_append, Bool.or_comm]

/-- CrateState::insert leaves every field but the flag set (and the derived
meta flags) unchanged, and only adds the one flag. -/
theorem insert_flags_contains (s : CrateState) (f g : CrateStateFlags) :
    bfContains (s.insert f).flags g = (bfContains s.flags g || decide (g = f)) := by
  show bfContains (bfInsert s.flags f) g = _
  exact bfContains_bfInsert s.flags f g

/-- Lookup at the inserted key after `insert_state!`. -/
theorem lhmLookup_insertFlag_self (m : StateMap) (k : String) (init : CrateState)
    (f : CrateStateFlags) :
    lhmLookup (lhmInsertFlag m k init f) k =
      some (((lhmLookup m k).getD init).insert f) := by
  induction m with
  | nil => simp [lhmInsertFlag, lhmLookup]
  | cons e rest ih =>
    by_cases he : e.1 = k
    · simp [lhmInsertFlag, lhmLookup, he]
    · simp [lhmInsertFlag, lhmLookup, he, ih]

/-- Lookup at another key after `insert_state!`. -/
theorem lhmLookup_insertFlag_other (m : StateMap) (k k' : String) (init : CrateState)
    (f : CrateStateFlags) (hne : ¬k' = k) :
    lhmLookup (lhmInsertFlag m k init f) k' = lhmLookup m k' := by
  have hx : ¬k = k' := fun h => hne h.symm
  induction m with
  | nil => simp [lhmInsertFlag, lhmLookup, hx]
  | cons e rest ih =>
    by_cases he : e.1 = k
    · simp [lhmInsertFlag, lhmLookup, he, hx]
    · by_cases he' : e.1 = k'
      · simp [lhmInsertFlag, lhmLookup, he, he', hne]
      · simp [lhmInsertFlag, lhmLookup, he, he', ih]

/-- Lookup at the touched key after `get_state!`. -/
theorem lhmLookup_touch_self (m : StateMap) (k : String) (init : CrateState) :
    lhmLookup (lhmTouch m k init) k = some ((lhmLookup m k).getD init) := by
  induction m with
  | nil => simp [lhmTouch, lhmLookup]
  | cons e rest ih =>
    by_cases he : e.1 = k
    · simp [lhmTouch, lhmLookup, he]
    · simp [lhmTouch, lhmLookup, he, ih]

/-- Lookup at another key after `get_state!`. -/
theorem lhmLookup_touch_other (m : StateMap) (k k' : String) (init : CrateState)
    (hne : ¬k' = k) :
    lhmLookup (lhmTouch m k init) k' = lhmLookup m k' := by
  have hx : ¬k = k' := fun h => hne h.symm
  induction m with
  | nil => simp [lhmTouch, lhmLookup, hx]
  | cons e rest ih =>
    by_cases he : e.1 = k
    · simp [lhmTouch, lhmLookup, he, hx]
    · by_cases he' : e.1 = k'
      · simp [lhmTouch, lhmLookup, he, he', hne]
      · simp [lhmTouch, lhmLookup, he, he', ih]

/-- Provenance through one `insert_state!`: a present flag was present
before, or is the one just inserted (the template carries no flags). -/
theorem flagIn_insertFlag (m : StateMap) (k0 k : String) (init : CrateState)
    (f0 f : CrateStateFlags) (hinit : init.flags = [])
    (h : flagIn (lhmInsertFlag m k0 init f0) k f) :
    flagIn m k f ∨ (k = k0 ∧ f = f0) := by
  obtain ⟨s, hs, hc⟩ := h
  by_cases hk : k = k0
  · subst hk
    rw [lhmLookup_insertFlag_self] at hs
    have hseq : s = ((lhmLookup m k).getD init).insert f0 := (Option.some.inj hs).symm
    rw [hseq, insert_flags_contains] at hc
    rw [Bool.or_eq_true] at hc
    rcases hc with hc | hc
    · cases hl : lhmLookup m k with
      | some t =>
        rw [hl, Option.getD_some] at hc
        exact Or.inl ⟨t, hl, hc⟩
      | none =>
        rw [hl, Option.getD_none, hinit] at hc
        simp [bfContains] at hc
    · exact Or.inr ⟨rfl, by simpa using hc⟩
  · rw [lhmLookup_insertFlag_other m k0 k init f0 hk] at hs
    exact Or.inl ⟨s, hs, hc⟩

/-- One `insert_state!` establishes its flag. -/
theorem flagIn_insertFlag_self (m : StateMap) (k0 : String) (init : CrateState)
    (f0 : CrateStateFlags) : flagIn (lhmInsertFlag m k0 init f0) k0 f0 := by
  refine ⟨((lhmLookup m k0).getD init).insert f0, lhmLookup_insertFlag_self m k0 init f0, ?_⟩
  rw [insert_flags_contains]
  simp

/-- One `insert_state!` keeps every present flag. -/
theorem keeps_insertFlag (m : StateMap) (k0 : String) (init : CrateState)
    (f0 : CrateStateFlags) : keepsFlags m (lhmInsertFlag m k0 init f0) := by
  rintro k f ⟨s, hs, hc⟩
  by_cases hk : k = k0
  · subst hk
    refine ⟨((lhmLookup m k).getD init).insert f0, lhmLookup_insertFlag_self m k init f0, ?_⟩
    rw [insert_flags_contains, hs]
    simp [hc]
  · exact ⟨s, by rw [lhmLookup_insertFlag_other m k0 k init f0 hk]; exact hs, hc⟩

/-- `get_state!` neither adds nor removes flags (the template has none). -/
theorem flagIn_touch_iff (m : StateMap) (k0 k : String) (init : CrateState)
    (f : CrateStateFlags) (hinit : init.flags = []) :
    flagIn (lhmTouch m k0 init) k f ↔ flagIn m k f := by
  constructor
  · rintro ⟨s, hs, hc⟩
    by_cases hk : k = k0
    · subst hk
      rw [lhmLookup_touch_self] at hs
      have hseq : s = (lhmLookup m k).getD init := (Option.some.inj hs).symm
      cases hl : lhmLookup m k with
      | some t =>
        rw [hl, Option.getD_some] at hseq
        subst hseq
        exact ⟨s, hl, hc⟩
      | none =>
        rw [hl, Option.getD_none] at hseq
        rw [hseq, hinit] at hc
        simp [bfContains] at hc
    · rw [lhmLookup_touch_other m k0 k init hk] at hs
      exact ⟨s, hs, hc⟩
  · rintro ⟨s, hs, hc⟩
    by_cases hk : k = k0
    · subst hk
      exact ⟨(lhmLookup m k).getD init, lhmLookup_touch_self m k init, by rw [hs]; exact hc⟩
    · exact ⟨s, by rw [lhmLookup_touch_other m k0 k init hk]; exact hs, hc⟩

/-- Keeping flags composes along a fold of `insert_state!` operations. -/
theorem keeps_foldl_insert {β : Type} (keyOf : β → String) (flagOf : β → CrateStateFlags)
    (init : CrateState) :
    ∀ (l : List β) (m : StateMap),
      keepsFlags m (l.foldl (fun acc x => lhmInsertFlag acc (keyOf x) init (flagOf x)) m) := by
  intro l
  induction l with
  | nil => intro m k f h; exact h
  | cons x xs ih =>
    intro m k f h
    exact ih (lhmInsertFlag m (keyOf x) init (flagOf x)) k f
      (keeps_insertFlag m (keyOf x) init (flagOf x) k f h)

/-- Provenance through a fold of `insert_state!` operations. -/
theorem flagIn_foldl_insert {β : Type} (keyOf : β → String) (flagOf : β → CrateStateFlags)
    (init : CrateState) (hinit : init.flags = []) :
    ∀ (l : List β) (m : StateMap) (k : String) (f : CrateStateFlags),
      flagIn (l.foldl (fun acc x => lhmInsertFlag acc (keyOf x) init (flagOf x)) m) k f →
      flagIn m k f ∨ ∃ x ∈ l, k = keyOf x ∧ f = flagOf x := by
  intro l
  induction l with
  | nil => intro m k f h; exact Or.inl h
  | cons x xs ih =>
    intro m k f h
    rcases ih _ k f h with h' | ⟨x', hx', hk, hf⟩
    · rcases flagIn_insertFlag m (keyOf x) k init (flagOf x) f hinit h' with h'' | ⟨hk, hf⟩
      · exact Or.inl h''
      · exact Or.inr ⟨x, by simp, hk, hf⟩
    · exact Or.inr ⟨x', by simp [hx'], hk, hf⟩

/-- A fold of `insert_state!` operations establishes the flag of each
element. -/
theorem flagIn_foldl_insert_mem {β : Type} (keyOf : β → String) (flagOf : β → CrateStateFlags)
    (init : CrateState) :
    ∀ (l : List β) (m : StateMap) (x : β), x ∈ l →
      flagIn (l.foldl (fun acc y => lhmInsertFlag acc (keyOf y) init (flagOf y)) m)
        (keyOf x) (flagOf x) := by
  intro l
  induction l with
  | nil =>
    intro m x hx
    exact absurd hx (by simp)
  | cons y ys ih =>
    intro m x hx
    rcases List.mem_cons.mp hx with rfl | hx'
    · exact keeps_foldl_insert keyOf flagOf init ys _ (keyOf x) (flagOf x)
        (flagIn_insertFlag_self m (keyOf x) init (flagOf x))
    · exact ih _ x hx'

/-- Membership through the sinking insertion of the stable sort. -/
theorem insertRev_mem {α : Type} (cmp : α → α → Ordering) (x y : α) :
    ∀ r : List α, y ∈ insertRev cmp x r ↔ y = x ∨ y ∈ r := by
  intro r
  induction r with
  | nil => simp [insertRev]
  | cons a rest ih =>
    rw [insertRev]
    split
    · rw [List.mem_cons, ih, List.mem_cons]
      tauto
    · simp [List.mem_cons]

/-- The stable sort keeps exactly the original elements. -/
theorem insertionSort_mem {α : Type} (cmp : α → α → Ordering) (l : List α) (y : α) :
    y ∈ insertionSort cmp l ↔ y ∈ l := by
  have aux : ∀ (l acc : List α),
      y ∈ l.foldl (fun acc x => insertRev cmp x acc) acc ↔ y ∈ l ∨ y ∈ acc := by
    intro l
    induction l with
    | nil => simp
    | cons a rest ih =>
      intro acc
      rw [List.foldl_cons, ih, insertRev_mem]
      simp only [List.mem_cons]
      tauto
  unfold insertionSort
  rw [List.mem_reverse, aux]
  simp

/-- Members returned by `members()` are exactly the loaded members. -/
theorem membersFuel_mem (ws : ReleaseWorkspace) (fuel : Nat) (ms : List Package)
    (h : membersFuel ws fuel = .ok ms) (x : Package) :
    x ∈ ms ↔ x ∈ ws.members_unsorted := by
  unfold membersFuel at h
  split at h
  · rename_i dm hdm
    rw [← RunRes.ok.inj h]
    exact insertionSort_mem (depCmp dm) ws.members_unsorted x
  · simp at h
  · simp at h

/-- The initial state template carries no flags. -/
theorem initialState_flags (c : SelectionCriteria) : (initialState c).flags = [] := rfl

/-- Keeping flags is transitive. -/
theorem keepsFlags_trans {a b c : StateMap} (h1 : keepsFlags a b) (h2 : keepsFlags b c) :
    keepsFlags a c :=
  fun k f h => h2 k f (h1 k f h)

/-- Step 1 keeps every present flag. -/
theorem stepMatched_keeps (ws : ReleaseWorkspace) (m : StateMap) (p : Package) :
    keepsFlags m (stepMatched ws m p) := by
  unfold stepMatched
  split
  · exact keeps_insertFlag m p.name _ .Matched
  · exact fun k f h => h

/-- Provenance through step 1. -/
theorem stepMatched_prov (ws : ReleaseWorkspace) (m : StateMap) (p : Package)
    (k : String) (f : CrateStateFlags) (h : flagIn (stepMatched ws m p) k f) :
    flagIn m k f ∨
      (k = p.name ∧ f = .Matched ∧ ws.criteria.selection_filter p.name = true) := by
  unfold stepMatched at h
  split at h
  · rename_i hreg
    rcases flagIn_insertFlag m p.name k _ .Matched f rfl h with h' | ⟨hk, hf⟩
    · exact Or.inl h'
    · exact Or.inr ⟨hk, hf, hreg⟩
  · exact Or.inl h

/-- Step 1 sets `Matched` when the filter matches. -/
theorem stepMatched_matched (ws : ReleaseWorkspace) (m : StateMap) (p : Package)
    (h : ws.criteria.selection_filter p.name = true) :
    flagIn (stepMatched ws m p) p.name .Matched := by
  unfold stepMatched
  rw [if_pos h]
  exact flagIn_insertFlag_self m p.name _ .Matched

/-- Steps 2 and 3 keep every present flag. -/
theorem stepVersionReqs_keeps (ws : ReleaseWorkspace) (m : StateMap) (p : Package) :
    keepsFlags m (stepVersionReqs ws m p) := by
  intro k f h
  exact keeps_foldl_insert (fun _ => p.name) (fun _ => .DisallowedVersionReqViolated) _ _ _ k f
    (keeps_foldl_insert (fun _ => p.name) (fun _ => .EnforcedVersionReqViolated) _ _ _ k f h)

/-- Provenance through steps 2 and 3. -/
theorem stepVersionReqs_prov (ws : ReleaseWorkspace) (m : StateMap) (p : Package)
    (k : String) (f : CrateStateFlags) (h : flagIn (stepVersionReqs ws m p) k f) :
    flagIn m k f ∨
      (k = p.name ∧ f = .EnforcedVersionReqViolated ∧
        ∃ r ∈ ws.criteria.enforced_version_reqs, r p.version = false) ∨
      (k = p.name ∧ f = .DisallowedVersionReqViolated ∧
        ∃ r ∈ ws.criteria.disallowed_version_reqs, r p.version = true) := by
  unfold stepVersionReqs at h
  rcases flagIn_foldl_insert (fun _ => p.name) (fun _ => .DisallowedVersionReqViolated) _ rfl
      _ _ k f h with h2 | ⟨x, hx, hk, hf⟩
  · rcases flagIn_foldl_insert (fun _ => p.name) (fun _ => .EnforcedVersionReqViolated) _ rfl
        _ _ k f h2 with h3 | ⟨x, hx, hk, hf⟩
    · exact Or.inl h3
    · refine Or.inr (Or.inl ⟨hk, hf, ?_⟩)
      have hx' := List.mem_of_mem_take hx
      rw [List.mem_filter] at hx'
      exact ⟨x, hx'.1, by simpa using hx'.2⟩
  · refine Or.inr (Or.inr ⟨hk, hf, ?_⟩)
    have hx' := List.mem_of_mem_take hx
    rw [List.mem_filter] at hx'
    exact ⟨x, hx'.1, hx'.2⟩

/-- Step 2 sets the enforced-violation flag when some requirement fails. -/
theorem stepVersionReqs_enforced (ws : ReleaseWorkspace) (m : StateMap) (p : Package)
    (h : ∃ r ∈ ws.criteria.enforced_version_reqs, r p.version = false) :
    flagIn (stepVersionReqs ws m p) p.name .EnforcedVersionReqViolated := by
  obtain ⟨r, hr, hrv⟩ := h
  unfold stepVersionReqs
  apply keeps_foldl_insert (fun _ => p.name) (fun _ => .DisallowedVersionReqViolated)
    (initialState ws.criteria) _ _ p.name .EnforcedVersionReqViolated
  cases hfil : (ws.criteria.enforced_version_reqs.filter (fun r => !r p.version)) with
  | nil =>
    rw [List.filter_eq_nil_iff] at hfil
    exact absurd (by simp [hrv]) (hfil r hr)
  | cons a t =>
    rw [show enforcedViolations ws.criteria p.version = [a] from by
      unfold enforcedViolations
      rw [hfil]
      simp]
    exact flagIn_foldl_insert_mem (fun _ => p.name) (fun _ => .EnforcedVersionReqViolated)
      _ [a] _ a (by simp)

/-- Step 3 sets the disallowed-violation flag when some requirement matches. -/
theorem stepVersionReqs_disallowed (ws : ReleaseWorkspace) (m : StateMap) (p : Package)
    (h : ∃ r ∈ ws.criteria.disallowed_version_reqs, r p.version = true) :
    flagIn (stepVersionReqs ws m p) p.name .DisallowedVersionReqViolated := by
  obtain ⟨r, hr, hrv⟩ := h
  unfold stepVersionReqs
  cases hfil : (ws.criteria.disallowed_version_reqs.filter (fun r => r p.version)) with
  | nil =>
    rw [List.filter_eq_nil_iff] at hfil
    exact absurd hrv (hfil r hr)
  | cons a t =>
    rw [show disallowedViolations ws.criteria p.version = [a] from by
      unfold disallowedViolations
      rw [hfil]
      simp]
    exact flagIn_foldl_insert_mem (fun _ => p.name) (fun _ => .DisallowedVersionReqViolated)
      _ [a] _ a (by simp)

/-- Step 4 keeps every present flag. -/
theorem stepDepsProp_keeps (ws : ReleaseWorkspace) (fuel : Nat) (m : StateMap)
    (p : Package) (m' : StateMap) (h : stepDepsProp ws fuel m p = .ok m') :
    keepsFlags m m' := by
  simp only [stepDepsProp] at h
  split at h
  · split at h
    · rename_i deps hdeps
      intro k f hf
      rw [← RunRes.ok.inj h]
      exact keeps_foldl_insert (fun d => d.package_name) (fun _ => .IsWorkspaceDependency)
        _ deps _ k f
        ((flagIn_touch_iff m p.name k (initialState ws.criteria) f rfl).mpr hf)
    · simp at h
    · simp at h
  · intro k f hf
    rw [← RunRes.ok.inj h]
    exact (flagIn_touch_iff m p.name k (initialState ws.criteria) f rfl).mpr hf

/-- Provenance through step 4. -/
theorem stepDepsProp_prov (ws : ReleaseWorkspace) (fuel : Nat) (m : StateMap)
    (p : Package) (m' : StateMap) (h : stepDepsProp ws fuel m p = .ok m')
    (k : String) (f : CrateStateFlags) (hf : flagIn m' k f) :
    flagIn m k f ∨ (f = .IsWorkspaceDependency ∧
      ∃ l, dependenciesInWorkspace ws p fuel = .ok l ∧ ∃ d ∈ l, d.package_name = k) := by
  simp only [stepDepsProp] at h
  split at h
  · split at h
    · rename_i deps hdeps
      rw [← RunRes.ok.inj h] at hf
      rcases flagIn_foldl_insert (fun d => d.package_name) (fun _ => .IsWorkspaceDependency)
          _ rfl deps _ k f hf with h' | ⟨d, hd, hk, hfl⟩
      · exact Or.inl ((flagIn_touch_iff m p.name k (initialState ws.criteria) f rfl).mp h')
      · exact Or.inr ⟨hfl, deps, hdeps, d, hd, hk.symm⟩
    · simp at h
    · simp at h
  · rw [← RunRes.ok.inj h] at hf
    exact Or.inl ((flagIn_touch_iff m p.name k (initialState ws.criteria) f rfl).mp hf)

/-- Step 4 on a matched entry: the dependency set was computed and the flag
is set on every descriptor's entry. -/
theorem stepDepsProp_matched (ws : ReleaseWorkspace) (fuel : Nat) (m : StateMap)
    (p : Package) (m' : StateMap) (hM : flagIn m p.name .Matched)
    (h : stepDepsProp ws fuel m p = .ok m') :
    ∃ deps, dependenciesInWorkspace ws p fuel = .ok deps ∧
      ∀ d ∈ deps, flagIn m' d.package_name .IsWorkspaceDependency := by
  simp only [stepDepsProp] at h
  have hguard : ((lhmLookup (lhmTouch m p.name (initialState ws.criteria)) p.name).getD
      (initialState ws.criteria)).is_matched = true := by
    obtain ⟨s, hs, hc⟩ := hM
    rw [lhmLookup_touch_self, hs, Option.getD_some]
    exact hc
  rw [if_pos hguard] at h
  split at h
  · rename_i deps hdeps
    refine ⟨deps, hdeps, ?_⟩
    intro d hd
    rw [← RunRes.ok.inj h]
    exact flagIn_foldl_insert_mem (fun d => d.package_name) (fun _ => .IsWorkspaceDependency)
      _ deps _ d hd
  · simp at h
  · simp at h

/-- Step 5 keeps every present flag. -/
theorem stepReadme_keeps (ws : ReleaseWorkspace) (m : StateMap) (p : Package) :
    keepsFlags m (stepReadme ws m p) := by
  unfold stepReadme
  split
  · exact keeps_insertFlag m p.name _ .MissingReadme
  · exact fun k f h => h

/-- Provenance through step 5. -/
theorem stepReadme_prov (ws : ReleaseWorkspace) (m : StateMap) (p : Package)
    (k : String) (f : CrateStateFlags) (h : flagIn (stepReadme ws m p) k f) :
    flagIn m k f ∨ (k = p.name ∧ f = .MissingReadme) := by
  unfold stepReadme at h
  split at h
  · exact flagIn_insertFlag m p.name k _ .MissingReadme f rfl h
  · exact Or.inl h

/-- The front-matter part keeps every present flag. -/
theorem stepFrontMatter_keeps (ws : ReleaseWorkspace) (m : StateMap) (p : Package)
    (fm : Option FrontMatter) : keepsFlags m (stepFrontMatter ws m p fm) := by
  unfold stepFrontMatter
  split
  · split
    · exact keeps_insertFlag m p.name _ .UnreleasableViaChangelogFrontmatter
    · exact fun k f hf => hf
  · exact fun k f hf => hf

/-- Provenance through the front-matter part. -/
theorem stepFrontMatter_prov (ws : ReleaseWorkspace) (m : StateMap) (p : Package)
    (fm : Option FrontMatter) (k : String) (f : CrateStateFlags)
    (h : flagIn (stepFrontMatter ws m p fm) k f) :
    flagIn m k f ∨ (k = p.name ∧ f = .UnreleasableViaChangelogFrontmatter) := by
  unfold stepFrontMatter at h
  split at h
  · split at h
    · exact flagIn_insertFlag m p.name k _ .UnreleasableViaChangelogFrontmatter f rfl h
    · exact Or.inl h
  · exact Or.inl h

/-- The previous-release part keeps every present flag. -/
theorem stepPrevRelease_keeps (ws : ReleaseWorkspace) (m : StateMap) (p : Package)
    (cl : Changelog) (m' : StateMap) (h : stepPrevRelease ws m p cl = .ok m') :
    keepsFlags m m' := by
  simp only [stepPrevRelease] at h
  split at h
  · rw [← RunRes.ok.inj h]
    exact fun k f hf => hf
  · split at h
    · rw [← RunRes.ok.inj h]
      exact fun k f hf => hf
    · split at h
      · simp at h
      · rename_i files hfiles
        rw [← RunRes.ok.inj h]
        split
        · exact keeps_insertFlag m p.name _ .HasPreviousRelease
        · exact keepsFlags_trans (keeps_insertFlag m p.name _ .HasPreviousRelease)
            (keeps_insertFlag _ p.name _ .ChangedSincePreviousRelease)

/-- Provenance through the previous-release part. -/
theorem stepPrevRelease_prov (ws : ReleaseWorkspace) (m : StateMap) (p : Package)
    (cl : Changelog) (m' : StateMap) (h : stepPrevRelease ws m p cl = .ok m')
    (k : String) (f : CrateStateFlags) (hf : flagIn m' k f) :
    flagIn m k f ∨ (k = p.name ∧ (f = .HasPreviousRelease ∨
      f = .ChangedSincePreviousRelease)) := by
  simp only [stepPrevRelease] at h
  split at h
  · rw [← RunRes.ok.inj h] at hf
    exact Or.inl hf
  · split at h
    · rw [← RunRes.ok.inj h] at hf
      exact Or.inl hf
    · split at h
      · simp at h
      · rename_i files hfiles
        rw [← RunRes.ok.inj h] at hf
        have hbase : flagIn (lhmInsertFlag m p.name (initialState ws.criteria)
            .HasPreviousRelease) k f →
            flagIn m k f ∨ (k = p.name ∧ (f = .HasPreviousRelease ∨
              f = .ChangedSincePreviousRelease)) := by
          intro hx
          rcases flagIn_insertFlag m p.name k _ .HasPreviousRelease f rfl hx with hy | ⟨hk, hfl⟩
          · exact Or.inl hy
          · exact Or.inr ⟨hk, Or.inl hfl⟩
        split at hf
        · exact hbase hf
        · rcases flagIn_insertFlag _ p.name k _ .ChangedSincePreviousRelease f rfl hf
            with hy | ⟨hk, hfl⟩
          · exact hbase hy
          · exact Or.inr ⟨hk, Or.inr hfl⟩

/-- Step 6 keeps every present flag. -/
theorem stepChangelog_keeps (ws : ReleaseWorkspace) (m : StateMap) (p : Package)
    (m' : StateMap) (h : stepChangelog ws m p = .ok m') : keepsFlags m m' := by
  unfold stepChangelog at h
  split at h
  · rw [← RunRes.ok.inj h]
    exact keeps_insertFlag m p.name _ .MissingChangelog
  · rename_i cl hcl
    split at h
    · simp at h
    · rename_i fm hfm
      exact keepsFlags_trans (stepFrontMatter_keeps ws m p fm)
        (stepPrevRelease_keeps ws _ p cl m' h)

/-- Provenance through step 6. -/
theorem stepChangelog_prov (ws : ReleaseWorkspace) (m : StateMap) (p : Package)
    (m' : StateMap) (h : stepChangelog ws m p = .ok m')
    (k : String) (f : CrateStateFlags) (hf : flagIn m' k f) :
    flagIn m k f ∨ (k = p.name ∧ (f = .MissingChangelog ∨
      f = .UnreleasableViaChangelogFrontmatter ∨ f = .HasPreviousRelease ∨
      f = .ChangedSincePreviousRelease)) := by
  unfold stepChangelog at h
  split at h
  · rw [← RunRes.ok.inj h] at hf
    rcases flagIn_insertFlag m p.name k _ .MissingChangelog f rfl hf with hy | ⟨hk, hfl⟩
    · exact Or.inl hy
    · exact Or.inr ⟨hk, Or.inl hfl⟩
  · rename_i cl hcl
    split at h
    · simp at h
    · rename_i fm hfm
      rcases stepPrevRelease_prov ws _ p cl m' h k f hf with hy | ⟨hk, hfl⟩
      · rcases stepFrontMatter_prov ws m p fm k f hy with hz | ⟨hk, hfl⟩
        · exact Or.inl hz
        · exact Or.inr ⟨hk, Or.inr (Or.inl hfl)⟩
      · exact Or.inr ⟨hk, by tauto⟩

/-- Inversion of one member's pass. -/
theorem memberStep_ok_inv (ws : ReleaseWorkspace) (fuel : Nat) (m : StateMap)
    (p : Package) (m' : StateMap) (h : memberStep ws fuel m p = .ok m') :
    ∃ m5, stepDepsProp ws fuel (stepVersionReqs ws (stepMatched ws m p) p) p = .ok m5 ∧
      stepChangelog ws (stepReadme ws m5 p) p = .ok m' := by
  unfold memberStep at h
  split at h
  · rename_i m5 h5
    exact ⟨m5, h5, h⟩
  · simp at h
  · simp at h

/-- One member's pass keeps every present flag. -/
theorem memberStep_keeps (ws : ReleaseWorkspace) (fuel : Nat) (m : StateMap)
    (p : Package) (m' : StateMap) (h : memberStep ws fuel m p = .ok m') :
    keepsFlags m m' := by
  obtain ⟨m5, h5, h6⟩ := memberStep_ok_inv ws fuel m p m' h
  exact keepsFlags_trans (stepMatched_keeps ws m p)
    (keepsFlags_trans (stepVersionReqs_keeps ws _ p)
      (keepsFlags_trans (stepDepsProp_keeps ws fuel _ p m5 h5)
        (keepsFlags_trans (stepReadme_keeps ws m5 p)
          (stepChangelog_keeps ws _ p m' h6))))

/-- Provenance through one member's pass. -/
theorem memberStep_prov (ws : ReleaseWorkspace) (fuel : Nat) (m : StateMap)
    (p : Package) (m' : StateMap) (h : memberStep ws fuel m p = .ok m')
    (k : String) (f : CrateStateFlags) (hf : flagIn m' k f) :
    flagIn m k f ∨ stepProv ws fuel p k f := by
  obtain ⟨m5, h5, h6⟩ := memberStep_ok_inv ws fuel m p m' h
  rcases stepChangelog_prov ws _ p m' h6 k f hf with hf | ⟨hk, hfl⟩
  · rcases stepReadme_prov ws m5 p k f hf with hf | ⟨hk, hfl⟩
    · rcases stepDepsProp_prov ws fuel _ p m5 h5 k f hf with hf | ⟨hfl, l, hl, hd⟩
      · rcases stepVersionReqs_prov ws _ p k f hf with hf | he | hd
        · rcases stepMatched_prov ws m p k f hf with hf | hm
          · exact Or.inl hf
          · exact Or.inr (Or.inl hm)
        · exact Or.inr (Or.inr (Or.inl he))
        · exact Or.inr (Or.inr (Or.inr (Or.inl hd)))
      · exact Or.inr (Or.inr (Or.inr (Or.inr (Or.inl ⟨hfl, l, hl, hd⟩))))
    · exact Or.inr (Or.inr (Or.inr (Or.inr (Or.inr ⟨hk, Or.inl hfl⟩))))
  · exact Or.inr (Or.inr (Or.inr (Or.inr (Or.inr ⟨hk, by tauto⟩))))

/-- The states fold keeps every present flag. -/
theorem statesFold_keeps (ws : ReleaseWorkspace) (fuel : Nat) :
    ∀ (ps : List Package) (m st : StateMap), statesFold ws fuel ps m = .ok st →
      keepsFlags m st := by
  intro ps
  induction ps with
  | nil =>
    intro m st h
    rw [statesFold] at h
    rw [← RunRes.ok.inj h]
    exact fun k f hf => hf
  | cons p ps ih =>
    intro m st h
    rw [statesFold] at h
    split at h
    · rename_i m2 h2
      exact keepsFlags_trans (memberStep_keeps ws fuel m p m2 h2) (ih m2 st h)
    · simp at h
    · simp at h

/-- Provenance through the states fold. -/
theorem statesFold_prov (ws : ReleaseWorkspace) (fuel : Nat) :
    ∀ (ps : List Package) (m st : StateMap), statesFold ws fuel ps m = .ok st →
      ∀ (k : String) (f : CrateStateFlags), flagIn st k f →
        flagIn m k f ∨ ∃ p ∈ ps, stepProv ws fuel p k f := by
  intro ps
  induction ps with
  | nil =>
    intro m st h k f hf
    rw [statesFold] at h
    rw [← RunRes.ok.inj h] at hf
    exact Or.inl hf
  | cons p ps ih =>
    intro m st h k f hf
    rw [statesFold] at h
    split at h
    · rename_i m2 h2
      rcases ih m2 st h k f hf with hf' | ⟨p', hp', hprov⟩
      · rcases memberStep_prov ws fuel m p m2 h2 k f hf' with hf'' | hprov
        · exact Or.inl hf''
        · exact Or.inr ⟨p, by simp, hprov⟩
      · exact Or.inr ⟨p', by simp [hp'], hprov⟩
    · simp at h
    · simp at h

/-- Splitting the states fold at one member. -/
theorem statesFold_append (ws : ReleaseWorkspace) (fuel : Nat) :
    ∀ (l1 l2 : List Package) (m st : StateMap),
      statesFold ws fuel (l1 ++ l2) m = .ok st →
      ∃ m1, statesFold ws fuel l1 m = .ok m1 ∧ statesFold ws fuel l2 m1 = .ok st := by
  intro l1
  induction l1 with
  | nil =>
    intro l2 m st h
    exact ⟨m, rfl, h⟩
  | cons p ps ih =>
    intro l2 m st h
    rw [List.cons_append, statesFold] at h
    split at h
    · rename_i m2 h2
      obtain ⟨m1, h1, hrest⟩ := ih l2 m2 st h
      refine ⟨m1, ?_, hrest⟩
      rw [statesFold, h2]
      exact h1
    · simp at h
    · simp at h

/-- Witness for claim C6: on the acyclic two-member workspace `a → b` the
hypotheses hold concretely and the dependency set of `a` is delivered. -/
theorem claim_C6_witness :
    (paA ∈ wsAB.members_unsorted) ∧ (wsAB.members_unsorted.map Package.name).Nodup ∧
      (∃ n l, dependenciesInWorkspace wsAB paA n = .ok l ∧ l.Nodup ∧
        (∀ d : Dependency, d ∈ l ↔ ∃ r, Relation.ReflTransGen (edge wsAB) paA r ∧
          d ∈ effDeps wsAB.criteria r) ∧
        (∀ m, n ≤ m → dependenciesInWorkspace wsAB paA m = .ok l)) :=
  ⟨by decide, by decide, claim_C6 wsAB paA (by decide) (by decide) wsAB_acyclic⟩

/-- The empty map holds no flags. -/
theorem flagIn_nil (k : String) (f : CrateStateFlags) : ¬flagIn ([] : StateMap) k f := by
  rintro ⟨s, hs, -⟩
  simp [lhmLookup] at hs

/-- A resolved member bears the resolved name. -/
theorem findMember_name (ws : ReleaseWorkspace) (n : String) (q : Package)
    (h : findMember ws n = some q) : q.name = n := by
  have := List.find?_some h
  simpa using this

/-- A nonempty list is not `isEmpty`. -/
theorem isEmpty_false_of_mem {α : Type} (l : List α) (x : α) (hx : x ∈ l) :
    l.isEmpty = false := by
  cases hE : l.isEmpty
  · rfl
  · rw [List.isEmpty_iff] at hE
    rw [hE] at hx
    exact absurd hx (by simp)

/-- Claim C7: after a successful `members_states`, a member's
enforced-violation flag is set exactly when some enforced requirement fails
its current version, its disallowed-violation flag exactly when some
disallowed requirement matches it, and in each case the recorded violation
run is the take-one truncation, of length at most one. -/
theorem claim_C7 (ws : ReleaseWorkspace) (fuel : Nat) (st : StateMap) (P : Package)
    (hst : membersStatesFuel ws fuel = .ok st)
    (hP : P ∈ ws.members_unsorted)
    (hnd : (ws.members_unsorted.map Package.name).Nodup) :
    (flagIn st P.name .EnforcedVersionReqViolated ↔
      ∃ r ∈ ws.criteria.enforced_version_reqs, r P.version = false) ∧
    (flagIn st P.name .DisallowedVersionReqViolated ↔
      ∃ r ∈ ws.criteria.disallowed_version_reqs, r P.version = true) ∧
    (enforcedViolations ws.criteria P.version).length ≤ 1 ∧
    (disallowedViolations ws.criteria P.version).length ≤ 1 := by
  unfold membersStatesFuel at hst
  split at hst
  · rename_i ms hms
    have hPms : P ∈ ms := (membersFuel_mem ws fuel ms hms P).mpr hP
    have huniq : ∀ p ∈ ms, p.name = P.name → p = P := by
      intro p hp hpn
      exact List.inj_on_of_nodup_map hnd ((membersFuel_mem ws fuel ms hms p).mp hp) hP hpn
    have hst0 := hst
    obtain ⟨l1, l2, hsplit⟩ := List.append_of_mem hPms
    rw [hsplit] at hst
    obtain ⟨m1, h1, hrest⟩ := statesFold_append ws fuel l1 (P :: l2) [] st hst
    rw [statesFold] at hrest
    split at hrest
    · rename_i m2 hmem2
      have kst : keepsFlags m2 st := statesFold_keeps ws fuel l2 m2 st hrest
      obtain ⟨m5, h5, h6⟩ := memberStep_ok_inv ws fuel m1 P m2 hmem2
      have transport : ∀ f0 : CrateStateFlags,
          flagIn (stepVersionReqs ws (stepMatched ws m1 P) P) P.name f0 →
          flagIn st P.name f0 := by
        intro f0 hv
        exact kst _ _ (stepChangelog_keeps ws _ P m2 h6 _ _
          (stepReadme_keeps ws m5 P _ _ (stepDepsProp_keeps ws fuel _ P m5 h5 _ _ hv)))
      refine ⟨⟨?_, ?_⟩, ⟨?_, ?_⟩, ?_, ?_⟩
      · intro hf
        rcases statesFold_prov ws fuel ms [] st hst0 P.name _ hf with hf0 | ⟨p, hp, hprov⟩
        · exact absurd hf0 (flagIn_nil _ _)
        · rcases hprov with ⟨-, hfl, -⟩ | ⟨hk, -, hex⟩ | ⟨-, hfl, -⟩ | ⟨hfl, -⟩ | ⟨-, hfl⟩
          · simp at hfl
          · rw [huniq p hp hk.symm] at hex
            exact hex
          · simp at hfl
          · simp at hfl
          · rcases hfl with hfl | hfl | hfl | hfl | hfl <;> simp at hfl
      · intro hex
        exact transport .EnforcedVersionReqViolated
          (stepVersionReqs_enforced ws _ P hex)
      · intro hf
        rcases statesFold_prov ws fuel ms [] st hst0 P.name _ hf with hf0 | ⟨p, hp, hprov⟩
        · exact absurd hf0 (flagIn_nil _ _)
        · rcases hprov with ⟨-, hfl, -⟩ | ⟨-, hfl, -⟩ | ⟨hk, -, hex⟩ | ⟨hfl, -⟩ | ⟨-, hfl⟩
          · simp at hfl
          · simp at hfl
          · rw [huniq p hp hk.symm] at hex
            exact hex
          · simp at hfl
          · rcases hfl with hfl | hfl | hfl | hfl | hfl <;> simp at hfl
      · intro hex
        exact transport .DisallowedVersionReqViolated
          (stepVersionReqs_disallowed ws _ P hex)
      · unfold enforcedViolations
        rw [List.length_take]
        exact min_le_left _ _
      · unfold disallowedViolations
        rw [List.length_take]
        exact min_le_left _ _
    · simp at hrest
    · simp at hrest
  · simp at hst
  · simp at hst

/-- Witness for claim C7 on the one-member workspace whose version 0.1.0
fails the single enforced requirement `major >= 1`. -/
theorem claim_C7_witness :
    ∃ st, membersStatesFuel wsC7 9 = .ok st ∧
      ((flagIn st pC7.name .EnforcedVersionReqViolated ↔
        ∃ r ∈ wsC7.criteria.enforced_version_reqs, r pC7.version = false) ∧
      (flagIn st pC7.name .DisallowedVersionReqViolated ↔
        ∃ r ∈ wsC7.criteria.disallowed_version_reqs, r pC7.version = true) ∧
      (enforcedViolations wsC7.criteria pC7.version).length ≤ 1 ∧
      (disallowedViolations wsC7.criteria pC7.version).length ≤ 1) :=
  ⟨_, rfl, claim_C7 wsC7 9 _ pC7 rfl (by decide) (by decide)⟩

/-- Claim C8: after a successful `members_states`, if a member's final state
is matched and another package is a transitive effective path-dependency of
it, that package's entry exists and carries `IsWorkspaceDependency`. -/
theorem claim_C8 (ws : ReleaseWorkspace) (fuel : Nat) (st : StateMap) (P Q : Package)
    (hst : membersStatesFuel ws fuel = .ok st)
    (hP : P ∈ ws.members_unsorted)
    (hM : flagIn st P.name .Matched)
    (hQ : Relation.TransGen (edge ws) P Q) :
    flagIn st Q.name .IsWorkspaceDependency := by
  unfold membersStatesFuel at hst
  split at hst
  · rename_i ms hms
    have hPms : P ∈ ms := (membersFuel_mem ws fuel ms hms P).mpr hP
    have hst0 := hst
    have hreg : ws.criteria.selection_filter P.name = true := by
      rcases statesFold_prov ws fuel ms [] st hst0 P.name _ hM with hf0 | ⟨p, hp, hprov⟩
      · exact absurd hf0 (flagIn_nil _ _)
      · rcases hprov with ⟨hk, -, hfil⟩ | ⟨-, hfl, -⟩ | ⟨-, hfl, -⟩ | ⟨hfl, -⟩ | ⟨-, hfl⟩
        · rw [hk]
          exact hfil
        · simp at hfl
        · simp at hfl
        · simp at hfl
        · rcases hfl with hfl | hfl | hfl | hfl | hfl <;> simp at hfl
    obtain ⟨l1, l2, hsplit⟩ := List.append_of_mem hPms
    rw [hsplit] at hst
    obtain ⟨m1, h1, hrest⟩ := statesFold_append ws fuel l1 (P :: l2) [] st hst
    rw [statesFold] at hrest
    split at hrest
    · rename_i m2 hmem2
      have kst : keepsFlags m2 st := statesFold_keeps ws fuel l2 m2 st hrest
      obtain ⟨m5, h5, h6⟩ := memberStep_ok_inv ws fuel m1 P m2 hmem2
      have hMv : flagIn (stepVersionReqs ws (stepMatched ws m1 P) P) P.name .Matched :=
        stepVersionReqs_keeps ws _ P _ _ (stepMatched_matched ws m1 P hreg)
      obtain ⟨deps, hdeps, hdflag⟩ := stepDepsProp_matched ws fuel _ P m5 hMv h5
      obtain ⟨c, hreach, hedge⟩ := Relation.TransGen.tail'_iff.mp hQ
      obtain ⟨d, hd, hfq⟩ := List.mem_filterMap.mp hedge
      have hdname : d.package_name = Q.name := (findMember_name ws d.package_name Q hfq).symm
      have hdmem : d ∈ deps := by
        rw [depsLoop_ok_mem ws P.name fuel [] [P] deps hdeps d]
        exact Or.inr ⟨P, by simp, c, hreach, hd⟩
      have hm5 : flagIn m5 Q.name .IsWorkspaceDependency := by
        rw [← hdname]
        exact hdflag d hdmem
      exact kst _ _ (stepChangelog_keeps ws _ P m2 h6 _ _ (stepReadme_keeps ws m5 P _ _ hm5))
    · simp at hrest
    · simp at hrest
  · simp at hst
  · simp at hst

/-- Witness for claim C8 on the workspace `a → b` with the match-all filter:
`a` ends up matched and `b` carries the dependency flag. -/
theorem claim_C8_witness :
    ∃ st, membersStatesFuel wsAB 9 = .ok st ∧ flagIn st paA.name .Matched ∧
      Relation.TransGen (edge wsAB) paA paB ∧
      flagIn st paB.name .IsWorkspaceDependency := by
  have hedge : Relation.TransGen (edge wsAB) paA paB :=
    Relation.TransGen.single (show paB ∈ pushListOf wsAB paA by decide)
  have hM : flagIn (match membersStatesFuel wsAB 9 with
      | .ok st => st
      | _ => []) paA.name .Matched := ⟨_, rfl, rfl⟩
  exact ⟨_, rfl, hM, hedge, claim_C8 wsAB 9 _ paA paB rfl (by decide) hM hedge⟩

/-- Claim C3: once members and states are computed, the top-level selection
fails with the blocked-release error — carrying the rendered report of the
offending packages and their blocking flags — exactly when some member is
selected but not allowed; otherwise it returns the sorted members passing
the release predicate, and never a partial result. -/
theorem claim_C3 (ws : ReleaseWorkspace) (fuel : Nat) (ms : List Package) (st : StateMap)
    (hm : membersFuel ws fuel = .ok ms) (hs : membersStatesFuel ws fuel = .ok st) :
    ((∃ p ∈ ms, ((lhmLookup st p.name).getD defaultCrateState).selected = true ∧
        ((lhmLookup st p.name).getD defaultCrateState).allowed = false) →
      releaseSelectionFuel ws fuel = .err (.blockedReleaseRequired
        ("the following crates are blocked but required for the release: \n" ++
          formatCratesStates ((ms.map (fun p => (p.name,
            (lhmLookup st p.name).getD defaultCrateState))).filter
            (fun e => e.2.selected && !e.2.allowed)) "DISALLOWED BLOCKING CRATES"
            true false false))) ∧
    ((∀ p ∈ ms, ¬(((lhmLookup st p.name).getD defaultCrateState).selected = true ∧
        ((lhmLookup st p.name).getD defaultCrateState).allowed = false)) →
      releaseSelectionFuel ws fuel = .ok (ms.filter
        (fun p => ((lhmLookup st p.name).getD defaultCrateState).release_selection))) := by
  unfold releaseSelectionFuel
  simp only [hm, hs]
  constructor
  · rintro ⟨p, hp, hsel, hall⟩
    have hmem : (p.name, (lhmLookup st p.name).getD defaultCrateState) ∈
        (ms.map (fun p => (p.name, (lhmLookup st p.name).getD defaultCrateState))).filter
          (fun e => e.2.selected && !e.2.allowed) := by
      rw [List.mem_filter]
      exact ⟨List.mem_map.mpr ⟨p, hp, rfl⟩, by simp [hsel, hall]⟩
    rw [if_pos (isEmpty_false_of_mem _ _ hmem)]
  · intro hnone
    have hnil : (ms.map (fun p => (p.name,
        (lhmLookup st p.name).getD defaultCrateState))).filter
          (fun e => e.2.selected && !e.2.allowed) = [] := by
      rw [List.filter_eq_nil_iff]
      intro e he
      obtain ⟨p, hp, rfl⟩ := List.mem_map.mp he
      intro hcond
      rw [Bool.and_eq_true] at hcond
      exact hnone p hp ⟨hcond.1, by simpa using hcond.2⟩
    rw [hnil]
    rw [if_neg (by simp)]

/-- Witness for claim C3 on the workspace `a → b`: no member is blocked, so
the selection returns the ordered members passing the release predicate. -/
theorem claim_C3_witness :
    ∃ ms st, membersFuel wsAB 9 = .ok ms ∧ membersStatesFuel wsAB 9 = .ok st ∧
      releaseSelectionFuel wsAB 9 = .ok (ms.filter
        (fun p => ((lhmLookup st p.name).getD defaultCrateState).release_selection)) :=
  ⟨_, _, rfl, rfl, (claim_C3 wsAB 9 _ _ rfl rfl).2 (by decide)⟩

end ReleaseAutomation
